import Mathlib

/-!
# Component synthesis controller of the application service

A shallow embedding of `controllers/hascomponent_controller.go` (the `Reconcile`
pass, `IsExist`, `convertGitHubURL`) and of the update validation exercised by
`api/v1alpha1/component_webhook_unit_test.go`, followed by the theorems that
settle the properties stated for them.

Conventions of the embedding

* Go strings are modelled by Lean strings. The source only searches for and
  splits at ASCII text, so working on characters instead of bytes gives the same
  result on every valid UTF-8 string.
* A Go `error` is modelled by its message (`Error := String`); `nil` is `none`.
* Go `int` is modelled by `Int` (no arithmetic is performed on it).
* Collaborators outside the repository (HTTP client, file system, git client,
  control-plane client, descriptor library, `net/url`) are passed in as
  functions, so every theorem quantifies over all their possible answers.
-/

set_option autoImplicit false

/-- A Go error value, represented by its message. -/
abbrev Error := String

/-! ## Go standard library: `strings` -/

namespace strings

/-- Is `p` an initial segment of the second list (`strings.HasPrefix` on characters). -/
def hasPrefixChars : List Char → List Char → Bool
  | [], _ => true
  | _ :: _, [] => false
  | p :: ps, c :: cs => p == c && hasPrefixChars ps cs

/-- Does `sub` occur in the list (`strings.Contains` on characters). -/
def containsChars (sub : List Char) : List Char → Bool
  | [] => sub.isEmpty
  | c :: cs => hasPrefixChars sub (c :: cs) || containsChars sub cs

/-- Go `strings.Contains(s, substr)`. -/
def Contains (s substr : String) : Bool :=
  containsChars substr.data s.data

/-- Replace the leftmost occurrence of `old` by `new`, on characters. -/
def replaceFirstChars (old new : List Char) : List Char → List Char
  | [] => if old.isEmpty then new else []
  | c :: cs =>
    if hasPrefixChars old (c :: cs) then new ++ (c :: cs).drop old.length
    else c :: replaceFirstChars old new cs

/-- Go `strings.Replace(s, old, new, 1)`: only the leftmost occurrence of `old`
is replaced; `s` is returned unchanged when `old` does not occur. -/
def ReplaceFirst (s old new : String) : String :=
  String.mk (replaceFirstChars old.data new.data s.data)

/-- Split a character list at every occurrence of `sep`. -/
def splitChars (sep : Char) : List Char → List (List Char)
  | [] => [[]]
  | c :: cs =>
    if c = sep then [] :: splitChars sep cs
    else
      match splitChars sep cs with
      | [] => [[c]]
      | p :: ps => (c :: p) :: ps

/-- Go `strings.Split(s, sep)` for a one-character separator (the source only
splits at `"/"`): `n` occurrences of the separator give `n + 1` pieces. -/
def Split (s : String) (sep : Char) : List String :=
  (splitChars sep s.data).map String.mk

end strings

/-! ## Go standard library: `path` -/

namespace path

/-- The element stack of `path.Clean`: `"."` and empty elements are dropped, and
`".."` removes the element before it, is dropped at the root of a rooted path and
is kept at the start of a relative one. The stack is kept in reverse order. -/
def cleanElems (rooted : Bool) : List String → List String → List String
  | [], stack => stack.reverse
  | e :: es, stack =>
    if e = "" ∨ e = "." then cleanElems rooted es stack
    else if e = ".." then
      match stack with
      | [] => if rooted then cleanElems rooted es [] else cleanElems rooted es [".."]
      | top :: below =>
        if top = ".." then cleanElems rooted es (".." :: top :: below)
        else cleanElems rooted es below
    else cleanElems rooted es (e :: stack)

/-- Go `path.Clean`: the shortest path name equivalent to `p` by purely lexical
processing. -/
def Clean (p : String) : String :=
  if p = "" then "."
  else
    let rooted := strings.hasPrefixChars ['/'] p.data
    let body := String.intercalate "/" (cleanElems rooted (strings.Split p '/') [])
    if rooted then "/" ++ body
    else if body = "" then "." else body

/-- Go `path.Join`: the non-empty elements are joined by `/` and the result is
cleaned; the result is empty when every element is empty. -/
def Join (elem : List String) : String :=
  match elem.filter (fun e => e ≠ "") with
  | [] => ""
  | es => Clean (String.intercalate "/" es)

end path

/-! ## Go standard library: `net/url` -/

namespace url

/-- The part of a parsed `url.URL` that the controller reads. -/
structure URL where
  Host : String
  deriving DecidableEq, Repr

/-- The text between `"//"` and the next `/`, for a reference written
`scheme://host/path`. -/
def hostChars : List Char → List Char
  | [] => []
  | c :: cs =>
    if strings.hasPrefixChars ['/', '/'] (c :: cs) then
      ((strings.splitChars '/' (cs.drop 1)).headD [])
    else hostChars cs

/-- The answer of `url.Parse` on a reference of the plain shape
`scheme://host/path` (no user information, port, query, fragment, escape or
control character): parsing succeeds and `Host` is the text between `//` and the
next `/`. It is used only to evaluate the controller on concrete references of
that shape; every general theorem quantifies over the parser instead. -/
def ParsePlain (rawURL : String) : Except Error URL :=
  .ok { Host := String.mk (hostChars rawURL.data) }

end url

deriving instance DecidableEq for Except

/-! ## Kubernetes and descriptor-library data read or written by the controller -/

namespace corev1

/-- An indirect value source of an environment entry (`corev1.EnvVarSource`);
the controller only tests whether one is present. -/
structure EnvVarSource where
  ref : String
  deriving DecidableEq, Repr

/-- An environment entry of the component configuration (`corev1.EnvVar`). -/
structure EnvVar where
  Name : String
  Value : String
  ValueFrom : Option EnvVarSource
  deriving DecidableEq, Repr

end corev1

namespace devfileAPIV1

/-- An environment entry of a container (`devfileAPIV1.EnvVar`). -/
structure EnvVar where
  Name : String
  Value : String
  deriving DecidableEq, Repr

/-- A network endpoint of a container (`devfileAPIV1.Endpoint`). -/
structure Endpoint where
  Name : String
  TargetPort : Int
  Exposure : String
  Protocol : String
  Path : String
  deriving DecidableEq, Repr

/-- The container part of a container-type component. -/
structure ContainerComponent where
  Image : String
  Env : List EnvVar
  Endpoints : List Endpoint
  deriving DecidableEq, Repr

/-- A project reference of a descriptor (`devfileAPIV1.Project` with a git
source); `Remotes` is the `map[string]string` of remotes as a key/value list. -/
structure Project where
  Name : String
  Remotes : List (String × String)
  deriving DecidableEq, Repr

end devfileAPIV1

namespace attributes

/-- A JSON value stored in an attribute bag. -/
inductive Value where
  | string (s : String)
  | integer (n : Int)
  deriving DecidableEq, Repr

/-- The free-form attribute bag of a component (`attributes.Attributes`, a Go map
from keys to JSON values), as a key/value list. -/
abbrev Attributes := List (String × Value)

/-- The map assignment `attributes[key] = value`: the value of an existing key is
overwritten, a new key is added. -/
def put (key : String) (value : Value) : Attributes → Attributes
  | [] => [(key, value)]
  | (k, v) :: rest =>
    if k = key then (key, value) :: rest else (k, v) :: put key value rest

/-- Library `Attributes.PutString(key, value)`. -/
def PutString (a : Attributes) (key value : String) : Attributes :=
  put key (.string value) a

/-- Library `Attributes.PutInteger(key, value)`. -/
def PutInteger (a : Attributes) (key : String) (value : Int) : Attributes :=
  put key (.integer value) a

/-- The value stored under a key, if any. -/
def get (key : String) : Attributes → Option Value
  | [] => none
  | (k, v) :: rest => if k = key then some v else get key rest

end attributes

namespace devfileAPIV1

/-- A container-type component of a descriptor (`devfileAPIV1.Component` whose
`Container` is set), as returned by `GetComponents` with the container filter. -/
structure Component where
  Name : String
  Attributes : attributes.Attributes
  Container : ContainerComponent
  deriving DecidableEq, Repr

end devfileAPIV1

namespace data

/-- The parts of a parsed descriptor document (`data.DevfileData`) the controller
works on: its container-type components and its project references. -/
structure DevfileData where
  Components : List devfileAPIV1.Component
  Projects : List devfileAPIV1.Project
  deriving DecidableEq, Repr

end data

namespace appstudiov1alpha1

/-- Git source of a component as read by the controller. -/
structure GitSource where
  URL : String
  DevfileURL : String
  deriving DecidableEq, Repr

/-- Image source of a component as read by the controller. -/
structure ImageSource where
  ContainerImage : String
  deriving DecidableEq, Repr

/-- Source of a component as read by the controller. -/
structure ComponentSource where
  GitSource : GitSource
  ImageSource : ImageSource
  deriving DecidableEq, Repr

/-- The fields of `HASComponent.Spec` read by the controller. -/
structure HASComponentSpec where
  ComponentName : String
  Application : String
  Context : String
  Source : ComponentSource
  Route : String
  Replicas : Int
  TargetPort : Int
  Env : List corev1.EnvVar
  deriving DecidableEq, Repr

/-- The status of a component or application record: the synthesized descriptor. -/
structure Status where
  Devfile : String
  deriving DecidableEq, Repr

/-- A component record (`appstudiov1alpha1.HASComponent`). -/
structure HASComponent where
  Name : String
  Namespace : String
  Spec : HASComponentSpec
  Status : Status
  deriving DecidableEq, Repr

/-- An application record (`appstudiov1alpha1.HASApplication`). -/
structure HASApplication where
  Name : String
  Namespace : String
  Status : Status
  deriving DecidableEq, Repr

end appstudiov1alpha1

namespace types

/-- Key of a record in the control plane (`types.NamespacedName`). -/
structure NamespacedName where
  Namespace : String
  Name : String
  deriving DecidableEq, Repr

end types

namespace ctrl

/-- The scheduling part of the answer of a pass (`ctrl.Result`). -/
structure Result where
  Requeue : Bool
  deriving DecidableEq, Repr

end ctrl

/-! ## Collaborators of a reconciliation pass -/

namespace controllers

/-- An error of the control-plane client together with the answer of
`errors.IsNotFound` on it. -/
structure APIError where
  IsNotFound : Bool
  msg : Error
  deriving DecidableEq, Repr

/-- The answer of `http.Get`: the status code and what `ioutil.ReadAll` yields
on the body. -/
structure Response where
  StatusCode : Nat
  Body : Except Error String

/-- The answer of `os.Stat` as far as `IsExist` distinguishes it: no error, an
error for which `os.IsNotExist` holds, or any other error. -/
inductive StatResult where
  | found
  | notExist (err : Error)
  | failed (err : Error)
  deriving DecidableEq, Repr

/-- The collaborators of one pass. Every function gives the answer the
collaborator returns when called with the given arguments; a pass calls each of
them at most once per argument, so this covers every behaviour of the outside
world during a pass. -/
structure World where
  /-- Control plane: `r.Get` of a component record. -/
  getComponent : types.NamespacedName → Except APIError appstudiov1alpha1.HASComponent
  /-- Control plane: `r.Get` of an application record. -/
  getApplication : types.NamespacedName → Except APIError appstudiov1alpha1.HASApplication
  /-- Control plane: `r.Status().Update` of a component record. -/
  updateComponentStatus : appstudiov1alpha1.HASComponent → Option Error
  /-- Control plane: `r.Status().Update` of an application record. -/
  updateApplicationStatus : appstudiov1alpha1.HASApplication → Option Error
  /-- Standard library `url.Parse`. -/
  urlParse : String → Except Error url.URL
  /-- HTTP client `http.Get`. -/
  httpGet : String → Except Error Response
  /-- File system `os.Stat`. -/
  stat : String → StatResult
  /-- File system `os.RemoveAll`. -/
  removeAll : String → Option Error
  /-- Git client `git.PlainClone(path, false, {URL})`. -/
  plainClone : String → String → Option Error
  /-- File system `ioutil.ReadFile`. -/
  readFile : String → Except Error String
  /-- Descriptor library `ParseDevfileAndValidate` on the given bytes. -/
  parseDevfileAndValidate : String → Except Error data.DevfileData
  /-- Serializer `yaml.Marshal` of a descriptor document. -/
  yamlMarshal : data.DevfileData → Except Error String

/-- A call made to a collaborator during a pass, with its arguments. -/
inductive Call where
  | GetComponent (key : types.NamespacedName)
  | GetApplication (key : types.NamespacedName)
  | UpdateComponentStatus (c : appstudiov1alpha1.HASComponent)
  | UpdateApplicationStatus (a : appstudiov1alpha1.HASApplication)
  | HTTPGet (url : String)
  | ReadAll (url : String)
  | Stat (path : String)
  | RemoveAll (path : String)
  | PlainClone (path : String) (url : String)
  | ReadFile (path : String)
  | ParseDevfileAndValidate (bytes : String)
  deriving DecidableEq, Repr

/-- Constant `devfileName`. -/
def devfileName : String := "devfile.yaml"

/-- Constant `clonePathPrefix`. -/
def clonePathPrefix : String := "/tmp/appstudio/has"

/-! ## `convertGitHubURL` and `IsExist` -/

/-- Source `convertGitHubURL` (lines 365-391): converts a git url to its raw
format. `parse` is `url.Parse`. -/
def convertGitHubURL (parse : String → Except Error url.URL) (URL : String) :
    Except Error String :=
  match parse URL with
  | .error err => .error err
  | .ok url =>
    if strings.Contains url.Host "github" && !strings.Contains url.Host "raw" then
      -- Convert path part of the URL
      let URLSlice := strings.Split URL '/'
      let URL1 :=
        if URLSlice.length > 2 ∧ URLSlice[URLSlice.length - 2]? = some "tree" then
          strings.ReplaceFirst URL "/tree" ""
        else
          URL ++ "/main"
      -- Convert host part of the URL
      let URL2 :=
        if url.Host = "github.com" then
          strings.ReplaceFirst URL1 "github.com" "raw.githubusercontent.com"
        else URL1
      .ok URL2
    else
      .ok URL

/-- Source `IsExist` (lines 353-363): whether the given file or directory
exists. `stat` is `os.Stat`. The pair is the Go result `(bool, error)`. -/
def IsExist (stat : String → StatResult) (path : String) : Bool × Option Error :=
  match stat path with
  | .found => (true, none)
  | .notExist _ => (false, none)
  | .failed err => (false, some err)

/-! ## The three stages of `Reconcile` -/

/-- The candidate descriptor path (lines 94-102): the context is prepended to
the descriptor file name when it is present. -/
def candidatePath (context : String) : String :=
  if context = "" then devfileName else path.Join [context, devfileName]

/-- Source resolution of `Reconcile` for a component with a git URL (lines
107-176). `devfilePath` is the local variable of that name as it stands at line
106. Returns the calls made, in order, and either the error the pass returns or
the descriptor bytes. -/
def resolveDevfile (w : World) (hasComponent : appstudiov1alpha1.HASComponent)
    (devfilePath : String) : List Call × Except Error String :=
  let source := hasComponent.Spec.Source
  if source.GitSource.DevfileURL = "" then
    match convertGitHubURL w.urlParse source.GitSource.URL with
    | .error err => ([], .error err)
    | .ok rawURL =>
      -- line 117: the local variable is overwritten
      let devfilePath := rawURL ++ "/" ++ devfilePath
      match w.httpGet devfilePath with
      | .error err => ([.HTTPGet devfilePath], .error err)
      | .ok resp =>
        if resp.StatusCode = 200 then
          match resp.Body with
          | .error err => ([.HTTPGet devfilePath, .ReadAll devfilePath], .error err)
          | .ok devfileBytes => ([.HTTPGet devfilePath, .ReadAll devfilePath], .ok devfileBytes)
        else
          let clonePath := path.Join
            [ clonePathPrefix, hasComponent.Spec.Application, hasComponent.Spec.ComponentName]
          -- Check if the clone path is empty, if not delete it
          match IsExist w.stat clonePath with
          | (_, some err) => ([.HTTPGet devfilePath, .Stat clonePath], .error err)
          | (isDirExist, none) =>
            -- line 142: the result of os.RemoveAll is not inspected
            let removed : List Call := if isDirExist then [.RemoveAll clonePath] else []
            let calls := [.HTTPGet devfilePath, .Stat clonePath] ++ removed
            -- Clone the repo
            match w.plainClone clonePath source.GitSource.URL with
            | some err => (calls ++ [.PlainClone clonePath source.GitSource.URL], .error err)
            | none =>
              -- Read the devfile
              let file := path.Join [clonePath, devfilePath]
              match w.readFile file with
              | .error err =>
                (calls ++ [.PlainClone clonePath source.GitSource.URL, .ReadFile file], .error err)
              | .ok devfileBytes =>
                (calls ++ [.PlainClone clonePath source.GitSource.URL, .ReadFile file],
                  .ok devfileBytes)
  else
    match w.httpGet source.GitSource.DevfileURL with
    | .error err => ([.HTTPGet source.GitSource.DevfileURL], .error err)
    | .ok resp =>
      if resp.StatusCode = 200 then
        match resp.Body with
        | .error err =>
          ([.HTTPGet source.GitSource.DevfileURL, .ReadAll source.GitSource.DevfileURL],
            .error err)
        | .ok devfileBytes =>
          ([.HTTPGet source.GitSource.DevfileURL, .ReadAll source.GitSource.DevfileURL],
            .ok devfileBytes)
      else
        ([.HTTPGet source.GitSource.DevfileURL],
          .error ("unable to GET from " ++ source.GitSource.DevfileURL))

/-- The inner loop of lines 237-243: every environment entry of the container
named `name` gets the value `value`; the flag is `isPresent`. -/
def updateEnv (name value : String) :
    List devfileAPIV1.EnvVar → Bool × List devfileAPIV1.EnvVar
  | [] => (false, [])
  | devfileEnv :: rest =>
    let r := updateEnv name value rest
    if devfileEnv.Name = name then (true, { devfileEnv with Value := value } :: r.2)
    else (r.1, devfileEnv :: r.2)

/-- One entry of the container after the body of the inner loop (lines 238-242):
it gets the value when it has the name. -/
def setEnvValue (name value : String) (devfileEnv : devfileAPIV1.EnvVar) :
    devfileAPIV1.EnvVar :=
  if devfileEnv.Name = name then { devfileEnv with Value := value } else devfileEnv

/-- The message of the error of line 230. -/
def valueFromError : Error := "env.ValueFrom is not supported at the moment, use env.value"

/-- Lines 233-247 for one literal entry `env` of the configuration: the entries
of the container that have its name get its value, and the entry is appended
when no entry has its name. -/
def applyEnv (env : corev1.EnvVar) (devfileEnvs : List devfileAPIV1.EnvVar) :
    List devfileAPIV1.EnvVar :=
  let name := env.Name
  let value := env.Value
  let r := updateEnv name value devfileEnvs
  if r.1 = false then r.2 ++ [{ Name := name, Value := value }]
  else r.2

/-- The loop over `hasComponent.Spec.Env` (lines 228-249) on the environment
list of one container: an entry with an indirect value source ends the pass with
an error, a literal entry is applied to the list. -/
def mergeEnv : List corev1.EnvVar → List devfileAPIV1.EnvVar →
    Except Error (List devfileAPIV1.EnvVar)
  | [], devfileEnvs => .ok devfileEnvs
  | env :: rest, devfileEnvs =>
    if env.ValueFrom ≠ none then .error valueFromError
    else mergeEnv rest (applyEnv env devfileEnvs)

/-- The loop of lines 221-226: every endpoint gets the target port. -/
def setTargetPort (targetPort : Int) (endpoints : List devfileAPIV1.Endpoint) :
    List devfileAPIV1.Endpoint :=
  endpoints.map (fun endpoint => { endpoint with TargetPort := targetPort })

/-- The body of the loop over the container components (lines 198-250) for the
component at index `i`: the component as it stands at line 251 together with
`updateRequired`, or the error returned from inside the body. -/
def mergeComponent (spec : appstudiov1alpha1.HASComponentSpec) (i : Nat)
    (component : devfileAPIV1.Component) : Except Error (devfileAPIV1.Component × Bool) :=
  let updateRequired := false
  -- lines 199-208
  let (component, updateRequired) :=
    if spec.Route ≠ "" then
      let attrs : attributes.Attributes :=
        if component.Attributes.length = 0 then [] else component.Attributes
      ({ component with
          Attributes := attributes.PutString attrs "appstudio/has.route" spec.Route }, true)
    else (component, updateRequired)
  -- lines 209-218
  let (component, updateRequired) :=
    if spec.Replicas > 0 then
      let attrs : attributes.Attributes :=
        if component.Attributes.length = 0 then [] else component.Attributes
      ({ component with
          Attributes := attributes.PutInteger attrs "appstudio/has.replicas" spec.Replicas },
        true)
    else (component, updateRequired)
  -- lines 219-227
  let (component, updateRequired) :=
    if i = 0 ∧ spec.TargetPort > 0 then
      ({ component with
          Container := { component.Container with
            Endpoints := setTargetPort spec.TargetPort component.Container.Endpoints } },
        updateRequired || !component.Container.Endpoints.isEmpty)
    else (component, updateRequired)
  -- lines 228-249
  match mergeEnv spec.Env component.Container.Env with
  | .error err => .error err
  | .ok devfileEnvs =>
    .ok ({ component with Container := { component.Container with Env := devfileEnvs } },
      updateRequired || !spec.Env.isEmpty)

/-- Modelled from the spec: the update operation of the descriptor library
(`devfileObj.Data.UpdateComponent`), which is not part of the repository. The
spec describes it as the "write-back of that container entry into the document":
the entry the loop is at is replaced by the given component. The operation is
given a component that was read from the same document, so it does not fail. -/
def UpdateComponent (doc : List devfileAPIV1.Component) (i : Nat)
    (component : devfileAPIV1.Component) : List devfileAPIV1.Component :=
  doc.set i component

/-- The loop over the container components (lines 197-259), from index `i` on:
`components` are the entries still to visit and `doc` the container entries of
the document. An entry is written back when `updateRequired` holds. -/
def mergeLoop (spec : appstudiov1alpha1.HASComponentSpec) :
    Nat → List devfileAPIV1.Component → List devfileAPIV1.Component →
    Except Error (List devfileAPIV1.Component)
  | _, [], doc => .ok doc
  | i, component :: rest, doc =>
    match mergeComponent spec i component with
    | .error err => .error err
    | .ok (component, updateRequired) =>
      if updateRequired then mergeLoop spec (i + 1) rest (UpdateComponent doc i component)
      else mergeLoop spec (i + 1) rest doc

/-- The attribute merge step of `Reconcile` (lines 187-259) on the container
entries of the descriptor: the container entries after the loop, or the error
the pass returns. -/
def mergeComponents (spec : appstudiov1alpha1.HASComponentSpec)
    (components : List devfileAPIV1.Component) : Except Error (List devfileAPIV1.Component) :=
  mergeLoop spec 0 components components

/-- The project reference built at lines 278-289. -/
def newProject (spec : appstudiov1alpha1.HASComponentSpec) : devfileAPIV1.Project :=
  { Name := spec.ComponentName, Remotes := [("origin", spec.Source.GitSource.URL)] }

/-- The message of the error of line 297. -/
def duplicateProjectError (name : String) : Error :=
  "HASApplication already has a project with name " ++ name

/-- The loop of lines 295-299: the error for the first project that has the new
project's name. -/
def checkProjects (newName : String) : List devfileAPIV1.Project → Option Error
  | [] => none
  | project :: rest =>
    if project.Name = newName then some (duplicateProjectError newName)
    else checkProjects newName rest

/-- Modelled from the spec: the add operation of the descriptor library
(`AddProjects`), which is not part of the repository; the spec describes it as
"appends the new project to the application descriptor". -/
def AddProjects (projects new : List devfileAPIV1.Project) : List devfileAPIV1.Project :=
  projects ++ new

/-- The link step of `Reconcile` (lines 278-304) on the project list of the
application descriptor: the project list after the step and the error returned,
if any. -/
def linkProject (spec : appstudiov1alpha1.HASComponentSpec)
    (projects : List devfileAPIV1.Project) : List devfileAPIV1.Project × Option Error :=
  match checkProjects (newProject spec).Name projects with
  | some err => (projects, some err)
  | none => (AddProjects projects [newProject spec], none)

/-! ## `Reconcile` -/

/-- Source `ParseDevfileModel` of `pkg/devfile/devfile.go` (lines 39-47). -/
def ParseDevfileModel (w : World) (devfileModel : String) : Except Error data.DevfileData :=
  w.parseDevfileAndValidate devfileModel

/-- What a pass yields: the calls made to the collaborators, in order, and the
Go result `(ctrl.Result, error)`. -/
structure Outcome where
  calls : List Call
  result : ctrl.Result
  err : Option Error
  deriving DecidableEq, Repr

/-- The part of `Reconcile` after the merge loop (lines 263-333): fetch of the
owning application, link step and the two status updates. `calls` are the calls
made so far, `devfileData` the component descriptor after the merge. -/
def linkAndPersist (w : World) (hasComponent : appstudiov1alpha1.HASComponent)
    (devfileData : data.DevfileData) (calls : List Call) : Outcome :=
  let key : types.NamespacedName :=
    { Name := hasComponent.Spec.Application, Namespace := hasComponent.Namespace }
  let calls := calls ++ [.GetApplication key]
  match w.getApplication key with
  | .error _ => ⟨calls, {Requeue := false}, none⟩
  | .ok hasApplication =>
    if hasApplication.Status.Devfile ≠ "" then
      let calls := calls ++ [.ParseDevfileAndValidate hasApplication.Status.Devfile]
      match ParseDevfileModel w hasApplication.Status.Devfile with
      | .error err => ⟨calls, {Requeue := false}, some err⟩
      | .ok hasAppDevfileData =>
        match linkProject hasComponent.Spec hasAppDevfileData.Projects with
        | (_, some err) => ⟨calls, {Requeue := false}, some err⟩
        | (projects, none) =>
          let hasAppDevfileData := { hasAppDevfileData with Projects := projects }
          match w.yamlMarshal devfileData with
          | .error err => ⟨calls, {Requeue := false}, some err⟩
          | .ok yamlHASCompData =>
            let hasComponent := { hasComponent with Status := { Devfile := yamlHASCompData } }
            let calls := calls ++ [.UpdateComponentStatus hasComponent]
            match w.updateComponentStatus hasComponent with
            | some err => ⟨calls, {Requeue := true}, some err⟩
            | none =>
              -- Update the HASApp CR with the new devfile
              match w.yamlMarshal hasAppDevfileData with
              | .error err => ⟨calls, {Requeue := false}, some err⟩
              | .ok yamlHASAppData =>
                let hasApplication :=
                  { hasApplication with Status := { Devfile := yamlHASAppData } }
                let calls := calls ++ [.UpdateApplicationStatus hasApplication]
                match w.updateApplicationStatus hasApplication with
                | some err => ⟨calls, {Requeue := true}, some err⟩
                | none => ⟨calls, {Requeue := false}, none⟩
    else
      ⟨calls, {Requeue := false},
        some ("HASApplication devfile model is empty. Before creating a HASComponent, " ++
          "an instance of HASApplication should be created")⟩

/-- Source `HASComponentReconciler.Reconcile` (lines 71-344) for the request
key `req`. Logging and the deferred close of the response body are omitted. The
getters of the descriptor library
(`GetComponents` with the container filter, `GetProjects`) read the fields of
the parsed document. -/
def Reconcile (w : World) (req : types.NamespacedName) : Outcome :=
  -- Fetch the HASComponent instance
  match w.getComponent req with
  | .error err =>
    if err.IsNotFound then ⟨[.GetComponent req], {Requeue := false}, none⟩
    else ⟨[.GetComponent req], {Requeue := false}, some err.msg⟩
  | .ok hasComponent =>
    -- If the devfile hasn't been populated, the CR was just created
    if hasComponent.Status.Devfile = "" then
      let source := hasComponent.Spec.Source
      let devfilePath := candidatePath hasComponent.Spec.Context
      if source.GitSource.URL ≠ "" then
        match resolveDevfile w hasComponent devfilePath with
        | (calls, .error err) => ⟨.GetComponent req :: calls, {Requeue := false}, some err⟩
        | (calls, .ok devfileBytes) =>
          let calls := .GetComponent req :: calls ++ [.ParseDevfileAndValidate devfileBytes]
          match w.parseDevfileAndValidate devfileBytes with
          | .error err => ⟨calls, {Requeue := false}, some err⟩
          | .ok devfileData =>
            match mergeComponents hasComponent.Spec devfileData.Components with
            | .error err => ⟨calls, {Requeue := false}, some err⟩
            | .ok components =>
              linkAndPersist w hasComponent { devfileData with Components := components } calls
      else if source.ImageSource.ContainerImage ≠ "" then
        ⟨[.GetComponent req], {Requeue := false},
          some ("container image is not supported at the moment, please use github links " ++
            "for adding a component to an application")⟩
      else ⟨[.GetComponent req], {Requeue := false}, none⟩
    else
      -- If the model already exists, see if fields have been updated
      ⟨[.GetComponent req], {Requeue := false}, some "not yet implemented"⟩

end controllers

/-! ## Update validation (`api/v1alpha1`) -/

namespace v1alpha1

/-- Git source of a component record, as built by the unit test. -/
structure GitSource where
  URL : String
  deriving DecidableEq, Repr

/-- Image source of a component record, as built by the unit test. -/
structure ImageSource where
  ContainerImage : String
  deriving DecidableEq, Repr

/-- `ComponentSource` with its embedded `ComponentSourceUnion`: two optional
pointers. -/
structure ComponentSource where
  GitSource : Option GitSource
  ImageSource : Option ImageSource
  deriving DecidableEq, Repr

/-- The fields of `ComponentSpec` set by the unit test. -/
structure ComponentSpec where
  ComponentName : String
  Application : String
  Context : String
  Source : ComponentSource
  deriving DecidableEq, Repr

/-- A component record (`v1alpha1.Component`). -/
structure Component where
  Spec : ComponentSpec
  deriving DecidableEq, Repr

/-- The identity fields whose change is rejected. -/
inductive ImmutableField where
  | componentName
  | applicationName
  | context
  | gitSource
  deriving DecidableEq, Repr

/-- The text by which the error names the field; these are the texts the unit
test looks for in the error message. -/
def ImmutableField.label : ImmutableField → String
  | .componentName => "component name cannot be updated to"
  | .applicationName => "application name cannot be updated to"
  | .context => "context cannot be updated to"
  | .gitSource => "git source cannot be updated to"

/-- The error of a rejected update: the offending field and both values. -/
structure ImmutableFieldError where
  field : ImmutableField
  oldValue : Option String
  newValue : Option String
  deriving DecidableEq, Repr

/-- The git URL of a record, absent when the record has no git source. -/
def Component.gitURL (c : Component) : Option String :=
  c.Spec.Source.GitSource.map (fun g => g.URL)

/-- Modelled from the spec: `Component.ValidateUpdate`, whose source file
(the webhook) is not part of the repository; only its unit test is. Following
the spec, it "sequentially checks, short-circuiting on first mismatch: component
name equality, application name equality, context path equality, and source
identity equality (for git-like sources, URL equality)", and "each mismatch
produces a distinct, human-readable error naming the offending field and both
values". For a change of source kind the spec's default is taken ("treat as an
ImmutableFieldError by default"), so the source identity that is compared is the
optional git URL. `r` is the new record and `old` the stored one; `none` is the
`nil` error. -/
def Component.ValidateUpdate (r old : Component) : Option ImmutableFieldError :=
  if r.Spec.ComponentName ≠ old.Spec.ComponentName then
    some ⟨.componentName, some old.Spec.ComponentName, some r.Spec.ComponentName⟩
  else if r.Spec.Application ≠ old.Spec.Application then
    some ⟨.applicationName, some old.Spec.Application, some r.Spec.Application⟩
  else if r.Spec.Context ≠ old.Spec.Context then
    some ⟨.context, some old.Spec.Context, some r.Spec.Context⟩
  else if r.gitURL ≠ old.gitURL then
    some ⟨.gitSource, old.gitURL, r.gitURL⟩
  else none

end v1alpha1

/-! ## Concrete runs -/

namespace controllers

/-- An uninitialized component of application `app` with a git source on
`github.com`, no explicit descriptor URL and no context. -/
def gitComponent : appstudiov1alpha1.HASComponent :=
  { Name := "comp", Namespace := "ns",
    Spec := { ComponentName := "comp", Application := "app", Context := "",
              Source := { GitSource := { URL := "https://github.com/a/b", DevfileURL := "" },
                          ImageSource := { ContainerImage := "" } },
              Route := "", Replicas := 0, TargetPort := 0, Env := [] },
    Status := { Devfile := "" } }

/-- The application that owns `gitComponent`, with a synthesized descriptor. -/
def gitApplication : appstudiov1alpha1.HASApplication :=
  { Name := "app", Namespace := "ns", Status := { Devfile := "schemaVersion: 2.1.0" } }

/-- A world in which the direct fetch of the raw descriptor answers 404, the
scratch directory does not exist, the clone succeeds and the clone holds the
descriptor at `devfile.yaml` of its root and nowhere else. -/
def cloneWorld : World :=
  { getComponent := fun _ => .ok gitComponent
    getApplication := fun _ => .ok gitApplication
    updateComponentStatus := fun _ => none
    updateApplicationStatus := fun _ => none
    urlParse := url.ParsePlain
    httpGet := fun _ => .ok { StatusCode := 404, Body := .ok "" }
    stat := fun _ => .notExist "no such file or directory"
    removeAll := fun _ => none
    plainClone := fun _ _ => none
    readFile := fun p =>
      if p = "/tmp/appstudio/has/app/comp/devfile.yaml" then .ok "schemaVersion: 2.1.0"
      else .error "no such file or directory"
    parseDevfileAndValidate := fun _ => .ok { Components := [], Projects := [] }
    yamlMarshal := fun _ => .ok "schemaVersion: 2.1.0" }

/-- A world in which the direct fetch answers 404, the scratch directory exists,
its removal fails, and every later call succeeds. -/
def removeFailsWorld : World :=
  { cloneWorld with
    stat := fun _ => .found
    removeAll := fun _ => some "unlinkat /tmp/appstudio/has/app/comp: permission denied"
    readFile := fun _ => .ok "schemaVersion: 2.1.0" }

/-- A configuration with a route, a replica count, a target port and three
literal environment entries, two of them of the same name. -/
def mergeSpec : appstudiov1alpha1.HASComponentSpec :=
  { gitComponent.Spec with
    Route := "route", Replicas := 2, TargetPort := 8080,
    Env := [⟨"FOO", "bar", none⟩, ⟨"BAR", "1", none⟩, ⟨"FOO", "baz", none⟩] }

/-- Two container entries: the first with two endpoints of distinct ports and two
environment entries, the second with one endpoint. -/
def mergeDoc : List devfileAPIV1.Component :=
  [ { Name := "web", Attributes := [],
      Container := { Image := "web:latest",
                     Env := [⟨"BAR", "0"⟩, ⟨"KEEP", "k"⟩],
                     Endpoints := [⟨"http", 3000, "public", "http", "/"⟩,
                                   ⟨"debug", 5858, "none", "tcp", ""⟩] } },
    { Name := "db", Attributes := [("tier", .string "data")],
      Container := { Image := "db:latest", Env := [],
                     Endpoints := [⟨"pg", 5432, "internal", "tcp", ""⟩] } } ]

/-- A configuration whose only environment entry has an indirect value source. -/
def valueFromSpec : appstudiov1alpha1.HASComponentSpec :=
  { gitComponent.Spec with Env := [⟨"FOO", "", some ⟨"secret/key"⟩⟩] }

/-- A world in which the component has an environment entry with an indirect
value source, the direct fetch of the descriptor succeeds and the descriptor has
no container component. -/
def valueFromWorld : World :=
  { cloneWorld with
    getComponent := fun _ => .ok { gitComponent with Spec := valueFromSpec }
    httpGet := fun _ => .ok { StatusCode := 200, Body := .ok "schemaVersion: 2.1.0" } }

/-- A world in which the direct fetch of the descriptor succeeds and every other
call succeeds. -/
def directWorld : World :=
  { cloneWorld with
    httpGet := fun _ => .ok { StatusCode := 200, Body := .ok "schemaVersion: 2.1.0" } }

/-- A world in which the direct fetch of the descriptor succeeds and the owning
application does not exist: its fetch fails with a not-found error. -/
def applicationNotFoundWorld : World :=
  { directWorld with
    getApplication := fun _ =>
      .error { IsNotFound := true,
               msg := "hasapplications.appstudio.redhat.com \"app\" not found" } }

/-- A world in which the direct fetch of the descriptor succeeds and the fetch of
the owning application fails with an error that is not a not-found error. -/
def applicationFetchFailsWorld : World :=
  { directWorld with
    getApplication := fun _ =>
      .error { IsNotFound := false, msg := "etcdserver: request timed out" } }

/-- A world in which the fetch of the component fails with an error that is not
a not-found error. -/
def componentFetchFailsWorld : World :=
  { directWorld with
    getComponent := fun _ =>
      .error { IsNotFound := false, msg := "etcdserver: request timed out" } }

end controllers

/-! ## Theorems -/

/-! ### Text operations -/

namespace strings

/-- The prefix test agrees with the prefix relation on lists. -/
theorem hasPrefixChars_iff (p s : List Char) : hasPrefixChars p s = true ↔ p <+: s := by
  induction p generalizing s with
  | nil => simp [hasPrefixChars]
  | cons a p ih =>
    cases s with
    | nil => simp [hasPrefixChars]
    | cons c cs => simp [hasPrefixChars, ih, List.cons_prefix_cons]

/-- The occurrence test agrees with the infix relation on lists. -/
theorem containsChars_iff (sub s : List Char) : containsChars sub s = true ↔ sub <:+: s := by
  induction s with
  | nil => simp [containsChars, List.isEmpty_iff]
  | cons c cs ih =>
    simp only [containsChars, Bool.or_eq_true, hasPrefixChars_iff, ih]
    constructor
    · rintro (h | h)
      · exact h.isInfix
      · exact h.trans (List.suffix_cons c cs).isInfix
    · intro h
      rcases List.infix_cons_iff.mp h with h | h
      · exact Or.inl h
      · exact Or.inr h

/-- Replacing leaves a text without occurrence of `old` unchanged. -/
theorem replaceFirstChars_of_not_contains (old new s : List Char) (hold : old ≠ [])
    (h : containsChars old s = false) : replaceFirstChars old new s = s := by
  induction s with
  | nil => simp [replaceFirstChars, List.isEmpty_iff, hold]
  | cons c cs ih =>
    simp only [containsChars, Bool.or_eq_false_iff] at h
    simp [replaceFirstChars, h.1, ih h.2]

/-- When `old` does not occur before the position after `pre`, the text
`pre ++ old ++ post` becomes `pre ++ new ++ post`. -/
theorem replaceFirstChars_first (old new pre post : List Char) (hold : old ≠ [])
    (h : containsChars old (pre ++ old.dropLast) = false) :
    replaceFirstChars old new (pre ++ old ++ post) = pre ++ new ++ post := by
  induction pre with
  | nil =>
    cases old with
    | nil => exact absurd rfl hold
    | cons o os =>
      have hp : hasPrefixChars (o :: os) (o :: (os ++ post)) = true :=
        (hasPrefixChars_iff _ _).mpr ⟨post, rfl⟩
      simp [replaceFirstChars, hp]
  | cons c pre ih =>
    have hc : containsChars old (c :: (pre ++ old.dropLast)) = false := by simpa using h
    simp only [containsChars, Bool.or_eq_false_iff] at hc
    have hnp : hasPrefixChars old (c :: (pre ++ old ++ post)) = false := by
      by_contra hcon
      have hcon : hasPrefixChars old (c :: (pre ++ old ++ post)) = true := by simpa using hcon
      rw [hasPrefixChars_iff] at hcon
      have h2 : (c :: (pre ++ old.dropLast)) <+: (c :: (pre ++ old ++ post)) := by
        refine ⟨old.drop (old.length - 1) ++ post, ?_⟩
        have : old.dropLast ++ old.drop (old.length - 1) = old := by
          rw [List.dropLast_eq_take]; exact List.take_append_drop _ _
        simp [← List.append_assoc]
        rw [List.append_assoc pre, this]
      have hlen : old.length ≤ (c :: (pre ++ old.dropLast)).length := by
        simp; omega
      have := List.prefix_of_prefix_length_le hcon h2 hlen
      rw [← hasPrefixChars_iff] at this
      rw [this] at hc
      exact absurd hc.1 (by simp)
    have := ih hc.2
    simp only [List.cons_append, List.append_assoc] at this hnp ⊢
    simp [replaceFirstChars, hnp, this]

/-- Splitting always yields at least one piece. -/
theorem splitChars_ne_nil (sep : Char) (s : List Char) : splitChars sep s ≠ [] := by
  cases s with
  | nil => simp [splitChars]
  | cons c cs =>
    unfold splitChars
    split
    · simp
    · split <;> simp

/-- A text without separator is a single piece. -/
theorem splitChars_of_not_mem (sep : Char) (s : List Char) (h : sep ∉ s) :
    splitChars sep s = [s] := by
  induction s with
  | nil => rfl
  | cons c cs ih =>
    have hc : c ≠ sep := fun e => h (by simp [e])
    have hcs : sep ∉ cs := fun e => h (by simp [e])
    simp [splitChars, hc, ih hcs]

/-- Splitting distributes over a separator. -/
theorem splitChars_append_sep (sep : Char) (a b : List Char) :
    splitChars sep (a ++ sep :: b) = splitChars sep a ++ splitChars sep b := by
  induction a with
  | nil => simp [splitChars]
  | cons c cs ih =>
    by_cases hc : c = sep
    · simp [splitChars, hc, ih]
    · have e : splitChars sep (c :: cs ++ sep :: b) =
          (match splitChars sep (cs ++ sep :: b) with
            | [] => [[c]]
            | p :: ps => (c :: p) :: ps) := by
        simp [splitChars, hc]
      have e' : splitChars sep (c :: cs) =
          (match splitChars sep cs with
            | [] => [[c]]
            | p :: ps => (c :: p) :: ps) := by
        simp [splitChars, hc]
      rw [e, e', ih]
      cases hsp : splitChars sep cs with
      | nil => exact absurd hsp (splitChars_ne_nil sep cs)
      | cons p ps => simp

end strings

namespace path

/-- The model of `path.Clean` agrees with the table of the test of Go's `path`
package (`cleantests`). -/
theorem Clean_table :
    [ "", "abc", "abc/def", "a/b/c", ".", "..", "../..", "../../abc", "/abc", "/",
      "abc/", "abc/def/", "a/b/c/", "./", "../", "../../", "/abc/",
      "abc//def//ghi", "//abc", "///abc", "//abc//", "abc//",
      "abc/./def", "/./abc/def", "abc/.",
      "abc/def/ghi/../jkl", "abc/def/../ghi/../jkl", "abc/def/..", "abc/def/../..",
      "/abc/def/../..", "abc/def/../../..", "/abc/def/../../..",
      "abc/def/../../../ghi/jkl/../../../mno",
      "abc/./../def", "abc//./../def", "abc/../../././../def" ].map Clean
    = [ ".", "abc", "abc/def", "a/b/c", ".", "..", "../..", "../../abc", "/abc", "/",
        "abc", "abc/def", "a/b/c", ".", "..", "../..", "/abc",
        "abc/def/ghi", "/abc", "/abc", "/abc", "abc",
        "abc/def", "/abc/def", "abc",
        "abc/def/jkl", "abc/jkl", "abc", ".",
        "/", "..", "/",
        "../../mno",
        "def", "def", "../../def" ] := by
  decide

/-- The model of `path.Join` agrees with the table of the test of Go's `path`
package (`jointests`). -/
theorem Join_table :
    [ [], [""], ["a"], ["a", "b"], ["a", ""], ["", "b"], ["/", "a"], ["/", ""],
      ["a/", "b"], ["a/", ""], ["", ""] ].map Join
    = [ "", "", "a", "a/b", "a", "b", "/a", "/", "a/b", "a", "" ] := by
  decide

end path

namespace controllers

/-- A reference ending in `/tree/<branch>` has more than two pieces and `tree` is the
piece before the last. -/
theorem split_tree_branch (x branch : String) (hb : '/' ∉ branch.data) :
    let pieces := strings.Split (x ++ "/tree/" ++ branch) '/'
    pieces.length > 2 ∧ pieces[pieces.length - 2]? = some "tree" := by
  have hd : (x ++ "/tree/" ++ branch).data
      = x.data ++ '/' :: (['t', 'r', 'e', 'e'] ++ '/' :: branch.data) := by
    simp [String.data_append]
  have ht : strings.splitChars '/' ['t', 'r', 'e', 'e'] = [['t', 'r', 'e', 'e']] := by decide
  have hs : strings.splitChars '/' (x ++ "/tree/" ++ branch).data
      = strings.splitChars '/' x.data ++ [['t', 'r', 'e', 'e'], branch.data] := by
    rw [hd, strings.splitChars_append_sep, strings.splitChars_append_sep, ht,
      strings.splitChars_of_not_mem _ _ hb]
    rfl
  have hne := strings.splitChars_ne_nil '/' x.data
  have hlen : 0 < (strings.splitChars '/' x.data).length := List.length_pos.mpr hne
  intro pieces
  have hp : pieces = (strings.splitChars '/' x.data).map String.mk ++ ["tree", branch] := by
    show (strings.splitChars '/' (x ++ "/tree/" ++ branch).data).map String.mk = _
    rw [hs]; simp
  rw [hp]
  constructor
  · simp; omega
  · simp only [List.length_append, List.length_map, List.length_cons, List.length_nil]
    rw [List.getElem?_append_right (by simp)]
    simp

/-- String form of `replaceFirstChars_first`. -/
theorem replaceFirst_first (pre old new post : String) (hold : old ≠ "")
    (h : strings.containsChars old.data (pre.data ++ old.data.dropLast) = false) :
    strings.ReplaceFirst (pre ++ old ++ post) old new = pre ++ new ++ post := by
  have hold' : old.data ≠ [] := fun e => hold (String.ext e)
  unfold strings.ReplaceFirst
  apply String.ext
  simp only [String.data_append]
  exact strings.replaceFirstChars_first _ _ _ _ hold' h

/-- C2 (amended). Let the reference read `pre ++ host ++ rest`, parse with host
`host`, a host that contains "github" and not "raw", and, when the host is
"github.com", let "github.com" not occur before the host. Then `convertGitHubURL`
returns no error, and the host is rewritten to "raw.githubusercontent.com" exactly
when it is "github.com" (any other host is kept as it is). When no `/`-separated
piece of the reference is "tree", "/main" is appended. When the reference ends
in "/tree/<branch>" with no `/` in the branch and no earlier occurrence of
"/tree", that "/tree" is stripped and nothing is appended. -/
theorem convertGitHubURL_github_shape
    (parse : String → Except Error url.URL) (pre host rest : String) (u : url.URL)
    (hparse : parse (pre ++ host ++ rest) = .ok u) (hhost : u.Host = host)
    (hgithub : strings.Contains host "github" = true)
    (hraw : strings.Contains host "raw" = false)
    (hfirst : host = "github.com" → strings.Contains (pre ++ "github.co") "github.com" = false) :
    ("tree" ∉ strings.Split (pre ++ host ++ rest) '/' →
      convertGitHubURL parse (pre ++ host ++ rest) =
        .ok (pre ++ (if host = "github.com" then "raw.githubusercontent.com" else host)
              ++ rest ++ "/main"))
    ∧ (∀ mid branch : String, rest = mid ++ "/tree/" ++ branch → '/' ∉ branch.data →
        strings.Contains (pre ++ host ++ mid ++ "/tre") "/tree" = false →
        convertGitHubURL parse (pre ++ host ++ rest) =
          .ok (pre ++ (if host = "github.com" then "raw.githubusercontent.com" else host)
                ++ mid ++ "/" ++ branch)) := by
  have hco : ("github.com" : String).data.dropLast = ("github.co" : String).data := by decide
  constructor
  · intro hnotree
    have hno : ¬ ((strings.Split (pre ++ host ++ rest) '/').length > 2 ∧
        (strings.Split (pre ++ host ++ rest) '/')[
          (strings.Split (pre ++ host ++ rest) '/').length - 2]? = some "tree") := by
      rintro ⟨_, hget⟩
      exact hnotree (List.getElem?_mem hget)
    unfold convertGitHubURL
    rw [hparse]
    simp only [hhost, hgithub, hraw, Bool.not_false, Bool.and_self, if_true, if_neg hno]
    by_cases hh : host = "github.com"
    · subst hh
      simp only [if_true]
      have h1 := hfirst rfl
      have := replaceFirst_first pre "github.com" "raw.githubusercontent.com" (rest ++ "/main")
        (by decide) (by rw [hco]; simpa [strings.Contains, String.data_append] using h1)
      have e2 : pre ++ "github.com" ++ rest ++ "/main"
          = pre ++ "github.com" ++ (rest ++ "/main") := by simp [String.append_assoc]
      rw [e2, this]
      simp [String.append_assoc]
    · simp [hh]
  · intro mid branch hrest hb hfree
    subst hrest
    have hsp := split_tree_branch (pre ++ host ++ mid) branch hb
    have hU : pre ++ host ++ (mid ++ "/tree/" ++ branch) = pre ++ host ++ mid ++ "/tree/" ++ branch := by
      simp [String.append_assoc]
    unfold convertGitHubURL
    rw [hparse]
    simp only [hhost, hgithub, hraw, Bool.not_false, Bool.and_self, if_true]
    rw [hU]
    rw [if_pos hsp]
    have htre : ("/tree" : String).data.dropLast = ("/tre" : String).data := by decide
    have hstrip : strings.ReplaceFirst (pre ++ host ++ mid ++ "/tree/" ++ branch) "/tree" ""
        = pre ++ host ++ mid ++ "/" ++ branch := by
      have := replaceFirst_first (pre ++ host ++ mid) "/tree" "" ("/" ++ branch) (by decide)
        (by rw [htre]; simpa [strings.Contains, String.data_append] using hfree)
      have e1 : pre ++ host ++ mid ++ "/tree/" ++ branch
          = pre ++ host ++ mid ++ "/tree" ++ ("/" ++ branch) := by
        apply String.ext; simp [String.data_append]
      rw [e1, this]
      apply String.ext; simp [String.data_append]
    rw [hstrip]
    by_cases hh : host = "github.com"
    · subst hh
      simp only [if_true]
      have h1 := hfirst rfl
      have := replaceFirst_first pre "github.com" "raw.githubusercontent.com"
        (mid ++ "/" ++ branch)
        (by decide) (by rw [hco]; simpa [strings.Contains, String.data_append] using h1)
      have e2 : pre ++ "github.com" ++ mid ++ "/" ++ branch
          = pre ++ "github.com" ++ (mid ++ "/" ++ branch) := by simp [String.append_assoc]
      rw [e2, this]
      simp [String.append_assoc]
    · simp [hh]

/-- Witness of `convertGitHubURL_github_shape`: a repository reference and a reference
to a branch of it on `github.com`. -/
theorem convertGitHubURL_github_shape_witness :
    strings.Contains "github.com" "github" = true ∧ strings.Contains "github.com" "raw" = false
    ∧ convertGitHubURL url.ParsePlain "https://github.com/a/b"
        = .ok "https://raw.githubusercontent.com/a/b/main"
    ∧ convertGitHubURL url.ParsePlain "https://github.com/a/b/tree/dev"
        = .ok "https://raw.githubusercontent.com/a/b/dev" :=
  ⟨by decide, by decide,
    (convertGitHubURL_github_shape url.ParsePlain "https://" "github.com" "/a/b"
      ⟨"github.com"⟩ (by decide) rfl (by decide) (by decide) (fun _ => by decide)).1 (by decide),
    (convertGitHubURL_github_shape url.ParsePlain "https://" "github.com" "/a/b/tree/dev"
      ⟨"github.com"⟩ (by decide) rfl (by decide) (by decide) (fun _ => by decide)).2
      "/a/b" "dev" (by decide) (by decide) (by decide)⟩

/-- C2 (counterexample). The host "www.github.com" contains "github" and not
"raw", yet the result keeps that host: it does not contain the raw-content host.
And for a reference on "github.com" whose "tree" piece is followed by a branch
and a directory, the result still has the "tree" piece and "/main" is appended
although the path has a "tree" piece. -/
theorem convertGitHubURL_host_kept_tree_kept :
    (url.ParsePlain "https://www.github.com/a/b" = .ok ⟨"www.github.com"⟩
      ∧ strings.Contains "www.github.com" "github" = true
      ∧ strings.Contains "www.github.com" "raw" = false
      ∧ convertGitHubURL url.ParsePlain "https://www.github.com/a/b"
          = .ok "https://www.github.com/a/b/main"
      ∧ strings.Contains "https://www.github.com/a/b/main" "raw.githubusercontent.com" = false)
    ∧ (url.ParsePlain "https://github.com/a/b/tree/dev/docs" = .ok ⟨"github.com"⟩
      ∧ "tree" ∈ strings.Split "https://github.com/a/b/tree/dev/docs" '/'
      ∧ convertGitHubURL url.ParsePlain "https://github.com/a/b/tree/dev/docs"
          = .ok "https://raw.githubusercontent.com/a/b/tree/dev/docs/main"
      ∧ "tree" ∈ strings.Split "https://raw.githubusercontent.com/a/b/tree/dev/docs/main" '/') := by
  decide

/-- C3. For every reference that parses and whose host contains "raw", and for
every reference that parses and whose host does not contain "github",
`convertGitHubURL` returns the input string unchanged and no error. -/
theorem convertGitHubURL_unchanged (parse : String → Except Error url.URL) (URL : String)
    (u : url.URL) (hparse : parse URL = .ok u)
    (hhost : strings.Contains u.Host "raw" = true ∨ strings.Contains u.Host "github" = false) :
    convertGitHubURL parse URL = .ok URL := by
  unfold convertGitHubURL
  rw [hparse]
  rcases hhost with h | h <;> simp [h]

/-- Witness of `convertGitHubURL_unchanged`: a raw-content host and a host that is
not a recognized source-control host. -/
theorem convertGitHubURL_unchanged_witness :
    (strings.Contains "raw.githubusercontent.com" "raw" = true
      ∧ convertGitHubURL url.ParsePlain "https://raw.githubusercontent.com/a/b/main"
          = .ok "https://raw.githubusercontent.com/a/b/main")
    ∧ (strings.Contains "gitlab.com" "github" = false
      ∧ convertGitHubURL url.ParsePlain "https://gitlab.com/a/b" = .ok "https://gitlab.com/a/b") :=
  ⟨⟨by decide, convertGitHubURL_unchanged url.ParsePlain _ ⟨"raw.githubusercontent.com"⟩
      (by decide) (Or.inl (by decide))⟩,
    ⟨by decide, convertGitHubURL_unchanged url.ParsePlain _ ⟨"gitlab.com"⟩
      (by decide) (Or.inr (by decide))⟩⟩

end controllers

/-! ### Update validation -/

namespace v1alpha1

/-- C1. For every stored record `old` and new record `r`, `ValidateUpdate`
returns no error exactly when component name, application name, context and git
URL are all unchanged; otherwise the error names the first differing field in
the order component name, application name, context, git source, with the texts
"component name cannot be updated to", "application name cannot be updated to",
"context cannot be updated to", "git source cannot be updated to"; and two
records that differ only in their container image are accepted. -/
theorem validateUpdate_first_changed_field (r old : Component) :
    (r.ValidateUpdate old = none ↔
      (r.Spec.ComponentName = old.Spec.ComponentName ∧ r.Spec.Application = old.Spec.Application
        ∧ r.Spec.Context = old.Spec.Context ∧ r.gitURL = old.gitURL))
    ∧ (r.Spec.ComponentName ≠ old.Spec.ComponentName →
        ∃ e, r.ValidateUpdate old = some e ∧ e.field = .componentName
          ∧ e.field.label = "component name cannot be updated to"
          ∧ e.oldValue = some old.Spec.ComponentName ∧ e.newValue = some r.Spec.ComponentName)
    ∧ (r.Spec.ComponentName = old.Spec.ComponentName →
        r.Spec.Application ≠ old.Spec.Application →
        ∃ e, r.ValidateUpdate old = some e ∧ e.field = .applicationName
          ∧ e.field.label = "application name cannot be updated to"
          ∧ e.oldValue = some old.Spec.Application ∧ e.newValue = some r.Spec.Application)
    ∧ (r.Spec.ComponentName = old.Spec.ComponentName →
        r.Spec.Application = old.Spec.Application →
        r.Spec.Context ≠ old.Spec.Context →
        ∃ e, r.ValidateUpdate old = some e ∧ e.field = .context
          ∧ e.field.label = "context cannot be updated to"
          ∧ e.oldValue = some old.Spec.Context ∧ e.newValue = some r.Spec.Context)
    ∧ (r.Spec.ComponentName = old.Spec.ComponentName →
        r.Spec.Application = old.Spec.Application →
        r.Spec.Context = old.Spec.Context →
        r.gitURL ≠ old.gitURL →
        ∃ e, r.ValidateUpdate old = some e ∧ e.field = .gitSource
          ∧ e.field.label = "git source cannot be updated to"
          ∧ e.oldValue = old.gitURL ∧ e.newValue = r.gitURL)
    ∧ (∀ image image' : Option ImageSource,
        Component.ValidateUpdate
          { Spec := { old.Spec with Source := { old.Spec.Source with ImageSource := image' } } }
          { Spec := { old.Spec with Source := { old.Spec.Source with ImageSource := image } } }
          = none) := by
  refine ⟨?_, ?_, ?_, ?_, ?_, ?_⟩
  · unfold Component.ValidateUpdate
    constructor
    · intro h
      by_cases h1 : r.Spec.ComponentName = old.Spec.ComponentName
      · by_cases h2 : r.Spec.Application = old.Spec.Application
        · by_cases h3 : r.Spec.Context = old.Spec.Context
          · by_cases h4 : r.gitURL = old.gitURL
            · exact ⟨h1, h2, h3, h4⟩
            · simp [h1, h2, h3, h4] at h
          · simp [h1, h2, h3] at h
        · simp [h1, h2] at h
      · simp [h1] at h
    · rintro ⟨h1, h2, h3, h4⟩
      simp [h1, h2, h3, h4]
  · intro h1
    exact ⟨⟨.componentName, some old.Spec.ComponentName, some r.Spec.ComponentName⟩,
      by simp [Component.ValidateUpdate, h1], rfl, rfl, rfl, rfl⟩
  · intro h1 h2
    exact ⟨⟨.applicationName, some old.Spec.Application, some r.Spec.Application⟩,
      by simp [Component.ValidateUpdate, h1, h2], rfl, rfl, rfl, rfl⟩
  · intro h1 h2 h3
    exact ⟨⟨.context, some old.Spec.Context, some r.Spec.Context⟩,
      by simp [Component.ValidateUpdate, h1, h2, h3], rfl, rfl, rfl, rfl⟩
  · intro h1 h2 h3 h4
    exact ⟨⟨.gitSource, old.gitURL, r.gitURL⟩,
      by simp [Component.ValidateUpdate, h1, h2, h3, h4], rfl, rfl, rfl, rfl⟩
  · intro image image'
    simp [Component.ValidateUpdate, Component.gitURL]

/-- The five cases of `TestComponentValidatingWebhook`, with the stored record
`{component, application, context, git http://link}` for the first four and the
stored record with container image `image` for the last. -/
theorem validateUpdate_unit_test :
    let original : Component :=
      ⟨⟨"component", "application", "context", ⟨some ⟨"http://link"⟩, none⟩⟩⟩
    let originalImage : Component :=
      ⟨⟨"component", "application", "context", ⟨none, some ⟨"image"⟩⟩⟩⟩
    ((Component.ValidateUpdate ⟨⟨"component1", "", "", ⟨none, none⟩⟩⟩ original).map
        (fun e => e.field.label) = some "component name cannot be updated to")
    ∧ ((Component.ValidateUpdate ⟨⟨"component", "application1", "", ⟨none, none⟩⟩⟩ original).map
        (fun e => e.field.label) = some "application name cannot be updated to")
    ∧ ((Component.ValidateUpdate
          ⟨⟨"component", "application", "context1", ⟨none, none⟩⟩⟩ original).map
        (fun e => e.field.label) = some "context cannot be updated to")
    ∧ ((Component.ValidateUpdate
          ⟨⟨"component", "application", "context", ⟨some ⟨"http://link1"⟩, none⟩⟩⟩ original).map
        (fun e => e.field.label) = some "git source cannot be updated to")
    ∧ Component.ValidateUpdate
          ⟨⟨"component", "application", "context", ⟨none, some ⟨"image1"⟩⟩⟩⟩ originalImage
        = none := by
  decide

end v1alpha1

/-! ### Source resolution -/

namespace controllers

/-- In the clone fallback the file read is at the clone path joined with the
overwritten variable, that is with the raw URL followed by the candidate path.
This holds for every world in which the pass reaches the read. -/
theorem resolveDevfile_clone_reads (w : World) (c : appstudiov1alpha1.HASComponent)
    (devfilePath rawURL : String) (resp : Response) (exist : Bool)
    (hurl : c.Spec.Source.GitSource.DevfileURL = "")
    (hraw : convertGitHubURL w.urlParse c.Spec.Source.GitSource.URL = .ok rawURL)
    (hget : w.httpGet (rawURL ++ "/" ++ devfilePath) = .ok resp)
    (hstatus : resp.StatusCode ≠ 200)
    (hexist : IsExist w.stat (path.Join
      [ clonePathPrefix, c.Spec.Application, c.Spec.ComponentName]) = (exist, none))
    (hclone : w.plainClone (path.Join
      [ clonePathPrefix, c.Spec.Application, c.Spec.ComponentName])
        c.Spec.Source.GitSource.URL = none) :
    Call.ReadFile (path.Join
        [path.Join [ clonePathPrefix, c.Spec.Application, c.Spec.ComponentName],
          rawURL ++ "/" ++ devfilePath])
      ∈ (resolveDevfile w c devfilePath).1 := by
  unfold resolveDevfile
  simp only [hurl, if_true, hraw, hget, if_neg hstatus, hexist, hclone]
  cases w.readFile (path.Join
        [path.Join [ clonePathPrefix, c.Spec.Application, c.Spec.ComponentName],
          rawURL ++ "/" ++ devfilePath]) <;> simp

/-- C4 (failing run). Component `comp` of application `app` has git URL
`https://github.com/a/b`, no explicit descriptor URL and no context; the direct
fetch answers 404 and the clone succeeds. The clone path is
`/tmp/appstudio/has/app/comp` and the candidate path is `devfile.yaml`, but the
pass reads
`/tmp/appstudio/has/app/comp/https:/raw.githubusercontent.com/a/b/main/devfile.yaml`,
not the candidate path under the clone path, and ends with the error of that
read although the clone holds the descriptor at the candidate path. -/
theorem reconcile_clone_reads_url_path :
    candidatePath gitComponent.Spec.Context = "devfile.yaml"
    ∧ path.Join [path.Join [ clonePathPrefix, "app", "comp"],
        candidatePath gitComponent.Spec.Context] = "/tmp/appstudio/has/app/comp/devfile.yaml"
    ∧ cloneWorld.readFile "/tmp/appstudio/has/app/comp/devfile.yaml" = .ok "schemaVersion: 2.1.0"
    ∧ Reconcile cloneWorld ⟨"ns", "comp"⟩ =
      { calls :=
          [ .GetComponent ⟨"ns", "comp"⟩,
            .HTTPGet "https://raw.githubusercontent.com/a/b/main/devfile.yaml",
            .Stat "/tmp/appstudio/has/app/comp",
            .PlainClone "/tmp/appstudio/has/app/comp" "https://github.com/a/b",
            .ReadFile
              "/tmp/appstudio/has/app/comp/https:/raw.githubusercontent.com/a/b/main/devfile.yaml"],
        result := { Requeue := false },
        err := some "no such file or directory" } := by
  decide

/-- In the source resolution, the error of every collaborator other than
`os.RemoveAll` ends the resolution with that error: the URL parse, the HTTP GET,
the read of the body, the existence check, the clone and the read of the file;
and with an explicit descriptor URL a status other than 200 is an error. -/
theorem resolveDevfile_propagates (w : World) (c : appstudiov1alpha1.HASComponent)
    (devfilePath : String) (err : Error) :
    (c.Spec.Source.GitSource.DevfileURL = "" →
      (w.urlParse c.Spec.Source.GitSource.URL = .error err →
        (resolveDevfile w c devfilePath).2 = .error err)
      ∧ (∀ rawURL, convertGitHubURL w.urlParse c.Spec.Source.GitSource.URL = .ok rawURL →
          (w.httpGet (rawURL ++ "/" ++ devfilePath) = .error err →
            (resolveDevfile w c devfilePath).2 = .error err)
          ∧ (w.httpGet (rawURL ++ "/" ++ devfilePath) = .ok ⟨200, .error err⟩ →
            (resolveDevfile w c devfilePath).2 = .error err)
          ∧ (∀ resp, w.httpGet (rawURL ++ "/" ++ devfilePath) = .ok resp →
              resp.StatusCode ≠ 200 →
              (w.stat (path.Join
                  [ clonePathPrefix, c.Spec.Application, c.Spec.ComponentName]) = .failed err →
                (resolveDevfile w c devfilePath).2 = .error err)
              ∧ ((∀ e, w.stat (path.Join
                  [ clonePathPrefix, c.Spec.Application, c.Spec.ComponentName]) ≠ .failed e) →
                (w.plainClone (path.Join
                    [ clonePathPrefix, c.Spec.Application, c.Spec.ComponentName])
                    c.Spec.Source.GitSource.URL = some err →
                  (resolveDevfile w c devfilePath).2 = .error err)
                ∧ (w.plainClone (path.Join
                    [ clonePathPrefix, c.Spec.Application, c.Spec.ComponentName])
                    c.Spec.Source.GitSource.URL = none →
                  w.readFile (path.Join
                    [path.Join [ clonePathPrefix, c.Spec.Application, c.Spec.ComponentName],
                      rawURL ++ "/" ++ devfilePath]) = .error err →
                  (resolveDevfile w c devfilePath).2 = .error err)))))
    ∧ (c.Spec.Source.GitSource.DevfileURL ≠ "" →
        (w.httpGet c.Spec.Source.GitSource.DevfileURL = .error err →
          (resolveDevfile w c devfilePath).2 = .error err)
        ∧ (w.httpGet c.Spec.Source.GitSource.DevfileURL = .ok ⟨200, .error err⟩ →
          (resolveDevfile w c devfilePath).2 = .error err)
        ∧ (∀ resp, w.httpGet c.Spec.Source.GitSource.DevfileURL = .ok resp →
            resp.StatusCode ≠ 200 →
            (resolveDevfile w c devfilePath).2
              = .error ("unable to GET from " ++ c.Spec.Source.GitSource.DevfileURL))) := by
  refine ⟨fun hurl => ⟨?_, ?_⟩, fun hurl => ⟨?_, ?_, ?_⟩⟩
  · intro h
    simp [resolveDevfile, hurl, convertGitHubURL, h]
  · intro rawURL hraw
    refine ⟨?_, ?_, ?_⟩
    · intro h
      simp [resolveDevfile, hurl, hraw, h]
    · intro h
      simp [resolveDevfile, hurl, hraw, h]
    · intro resp hget hstatus
      refine ⟨?_, ?_⟩
      · intro h
        simp [resolveDevfile, hurl, hraw, hget, hstatus, IsExist, h]
      · intro hstat
        refine ⟨?_, ?_⟩
        · intro h
          unfold resolveDevfile
          simp only [hurl, if_true, hraw, hget, if_neg hstatus, IsExist]
          cases hs : w.stat (path.Join
                [ clonePathPrefix, c.Spec.Application, c.Spec.ComponentName]) with
          | found => simp [h]
          | notExist e => simp [h]
          | failed e => exact absurd hs (hstat e)
        · intro h hread
          unfold resolveDevfile
          simp only [hurl, if_true, hraw, hget, if_neg hstatus, IsExist]
          cases hs : w.stat (path.Join
                [ clonePathPrefix, c.Spec.Application, c.Spec.ComponentName]) with
          | found => simp [h, hread]
          | notExist e => simp [h, hread]
          | failed e => exact absurd hs (hstat e)
  · intro h
    simp [resolveDevfile, hurl, h]
  · intro h
    simp [resolveDevfile, hurl, h]
  · intro resp h hstatus
    simp [resolveDevfile, hurl, h, hstatus]

/-- C10 (failing run). The answer of `os.RemoveAll` is never inspected: a pass
yields the same calls and the same result whatever `os.RemoveAll` answers. In
the run below the direct fetch answers 404, the scratch directory exists and its
removal fails with an error; the pass goes on to clone, read, parse, link and
persist, and returns no error. -/
theorem reconcile_ignores_removeAll_error :
    (∀ (w : World) (removeAll : String → Option Error) (req : types.NamespacedName),
      Reconcile { w with removeAll := removeAll } req = Reconcile w req)
    ∧ removeFailsWorld.removeAll "/tmp/appstudio/has/app/comp"
        = some "unlinkat /tmp/appstudio/has/app/comp: permission denied"
    ∧ Reconcile removeFailsWorld ⟨"ns", "comp"⟩ =
      { calls :=
          [ .GetComponent ⟨"ns", "comp"⟩,
            .HTTPGet "https://raw.githubusercontent.com/a/b/main/devfile.yaml",
            .Stat "/tmp/appstudio/has/app/comp",
            .RemoveAll "/tmp/appstudio/has/app/comp",
            .PlainClone "/tmp/appstudio/has/app/comp" "https://github.com/a/b",
            .ReadFile
              "/tmp/appstudio/has/app/comp/https:/raw.githubusercontent.com/a/b/main/devfile.yaml",
            .ParseDevfileAndValidate "schemaVersion: 2.1.0",
            .GetApplication ⟨"ns", "app"⟩,
            .ParseDevfileAndValidate "schemaVersion: 2.1.0",
            .UpdateComponentStatus
              { gitComponent with Status := { Devfile := "schemaVersion: 2.1.0" } },
            .UpdateApplicationStatus gitApplication],
        result := { Requeue := false },
        err := none } := by
  refine ⟨fun w removeAll req => rfl, by decide, by decide⟩

end controllers

/-! ### Attribute merge and project link -/

namespace controllers
open devfileAPIV1 appstudiov1alpha1

/-- Setting the value keeps the name of an entry. -/
theorem setEnvValue_name (n v : String) (d : EnvVar) : (setEnvValue n v d).Name = d.Name := by
  unfold setEnvValue; split <;> rfl

/-- An entry of another name is left as it is. -/
theorem setEnvValue_of_ne (n v : String) (d : EnvVar) (h : d.Name ≠ n) :
    setEnvValue n v d = d := by
  simp [setEnvValue, h]

/-- An entry of the name gets the value. -/
theorem setEnvValue_of_eq (n v : String) (d : EnvVar) (h : d.Name = n) :
    setEnvValue n v d = { Name := n, Value := v } := by
  cases d; simp_all [setEnvValue]

/-- The list computed by the inner loop is the map of `setEnvValue`. -/
theorem updateEnv_snd (n v : String) (l : List EnvVar) :
    (updateEnv n v l).2 = l.map (setEnvValue n v) := by
  induction l with
  | nil => rfl
  | cons d ds ih =>
    by_cases h : d.Name = n <;> simp [updateEnv, setEnvValue, h, ih]

/-- The flag computed by the inner loop tells whether the name is present. -/
theorem updateEnv_fst (n v : String) (l : List EnvVar) :
    (updateEnv n v l).1 = true ↔ n ∈ l.map (fun d => d.Name) := by
  induction l with
  | nil => simp [updateEnv]
  | cons d ds ih =>
    by_cases h : d.Name = n
    · simp [updateEnv, h]
    · have h' : ¬ n = d.Name := fun e => h e.symm
      simp [updateEnv, h, h', ih]

/-- The inner loop changes nothing when the name is absent. -/
theorem map_setEnvValue_of_absent (n v : String) (l : List EnvVar)
    (h : n ∉ l.map (fun d => d.Name)) : l.map (setEnvValue n v) = l := by
  induction l with
  | nil => rfl
  | cons d ds ih =>
    simp only [List.map_cons, List.mem_cons, not_or] at h
    rw [List.map_cons, ih h.2, setEnvValue_of_ne _ _ _ (fun e => h.1 e.symm)]

/-- A present name is overwritten in place. -/
theorem applyEnv_of_present (e : corev1.EnvVar) (l : List EnvVar)
    (h : e.Name ∈ l.map (fun d => d.Name)) :
    applyEnv e l = l.map (setEnvValue e.Name e.Value) := by
  have := (updateEnv_fst e.Name e.Value l).mpr h
  simp [applyEnv, this, updateEnv_snd]

/-- An absent name is appended at the end. -/
theorem applyEnv_of_absent (e : corev1.EnvVar) (l : List EnvVar)
    (h : e.Name ∉ l.map (fun d => d.Name)) :
    applyEnv e l = l ++ [{ Name := e.Name, Value := e.Value }] := by
  have : (updateEnv e.Name e.Value l).1 = false := by
    cases hb : (updateEnv e.Name e.Value l).1 with
    | false => rfl
    | true => exact absurd ((updateEnv_fst _ _ _).mp hb) h
  simp [applyEnv, this, updateEnv_snd, map_setEnvValue_of_absent _ _ _ h]

/-- With literal entries only, the loop over the configuration is a fold of `applyEnv`. -/
theorem mergeEnv_literal (cfg : List corev1.EnvVar) (l : List EnvVar)
    (h : ∀ e ∈ cfg, e.ValueFrom = none) :
    mergeEnv cfg l = .ok (cfg.foldl (fun acc e => applyEnv e acc) l) := by
  induction cfg generalizing l with
  | nil => rfl
  | cons e rest ih =>
    have he : e.ValueFrom = none := h e (by simp)
    simp only [mergeEnv, he, ne_eq, not_true_eq_false, if_false, List.foldl_cons]
    exact ih _ (fun e' he' => h e' (by simp [he']))

/-- An entry with an indirect value source makes the loop return the error of line 230. -/
theorem mergeEnv_valueFrom (cfg : List corev1.EnvVar) (l : List EnvVar)
    (h : ∃ e ∈ cfg, e.ValueFrom ≠ none) : mergeEnv cfg l = .error valueFromError := by
  induction cfg generalizing l with
  | nil => simp at h
  | cons e rest ih =>
    by_cases he : e.ValueFrom = none
    · simp only [mergeEnv, he, ne_eq, not_true_eq_false, if_false]
      apply ih
      obtain ⟨e', he', hv⟩ := h
      rcases List.mem_cons.mp he' with rfl | hm
      · exact absurd he hv
      · exact ⟨e', hm, hv⟩
    · simp [mergeEnv, he]

/-- The loop over the configuration succeeds only on literal entries. -/
theorem mergeEnv_ok_literal (cfg : List corev1.EnvVar) (l out : List EnvVar)
    (h : mergeEnv cfg l = .ok out) : ∀ e ∈ cfg, e.ValueFrom = none := by
  intro e he
  by_contra hv
  rw [mergeEnv_valueFrom cfg l ⟨e, he, hv⟩] at h
  cases h

/-- The names after one configured entry. -/
theorem applyEnv_names (e : corev1.EnvVar) (l : List EnvVar) :
    (applyEnv e l).map (fun d => d.Name) =
      l.map (fun d => d.Name) ++ (if e.Name ∈ l.map (fun d => d.Name) then [] else [e.Name]) := by
  by_cases h : e.Name ∈ l.map (fun d => d.Name)
  · rw [applyEnv_of_present e l h, if_pos h, List.append_nil, List.map_map]
    apply List.map_congr_left
    intro d _
    exact setEnvValue_name _ _ d
  · rw [applyEnv_of_absent e l h, if_neg h]
    simp

/-- An entry of another name was there before. -/
theorem mem_applyEnv_of_ne (e : corev1.EnvVar) (l : List EnvVar) (d : EnvVar)
    (hd : d ∈ applyEnv e l) (hne : d.Name ≠ e.Name) : d ∈ l := by
  by_cases h : e.Name ∈ l.map (fun d => d.Name)
  · rw [applyEnv_of_present e l h, List.mem_map] at hd
    obtain ⟨d0, hd0, rfl⟩ := hd
    rw [setEnvValue_name] at hne
    rwa [setEnvValue_of_ne _ _ _ hne]
  · rw [applyEnv_of_absent e l h, List.mem_append] at hd
    rcases hd with hd | hd
    · exact hd
    · simp at hd
      exact absurd (by rw [hd]) hne

/-- After one configured entry, every entry of its name has its value. -/
theorem value_of_mem_applyEnv (e : corev1.EnvVar) (l : List EnvVar) (d : EnvVar)
    (hd : d ∈ applyEnv e l) (hn : d.Name = e.Name) : d.Value = e.Value := by
  by_cases h : e.Name ∈ l.map (fun d => d.Name)
  · rw [applyEnv_of_present e l h, List.mem_map] at hd
    obtain ⟨d0, _, rfl⟩ := hd
    rw [setEnvValue_name] at hn
    rw [setEnvValue_of_eq _ _ _ hn]
  · rw [applyEnv_of_absent e l h, List.mem_append] at hd
    rcases hd with hd | hd
    · exact absurd (List.mem_map.mpr ⟨d, hd, hn⟩) h
    · simp at hd
      rw [hd]

/-- An entry whose name is not configured was there before the fold. -/
theorem mem_foldl_applyEnv_of_not_configured (cfg : List corev1.EnvVar) (l : List EnvVar)
    (d : EnvVar) (hd : d ∈ cfg.foldl (fun acc e => applyEnv e acc) l)
    (hn : ∀ e ∈ cfg, e.Name ≠ d.Name) : d ∈ l := by
  induction cfg generalizing l with
  | nil => exact hd
  | cons e rest ih =>
    rw [List.foldl_cons] at hd
    have := ih _ hd (fun e' he' => hn e' (by simp [he']))
    exact mem_applyEnv_of_ne e l d this (fun h => hn e (by simp) h.symm)

/-- After the fold, an entry of a configured name has the value of the last
occurrence of that name. -/
theorem foldl_applyEnv_last_value (pre post : List corev1.EnvVar) (e : corev1.EnvVar)
    (l : List EnvVar) (hpost : ∀ e' ∈ post, e'.Name ≠ e.Name) (d : EnvVar)
    (hd : d ∈ (pre ++ e :: post).foldl (fun acc e => applyEnv e acc) l)
    (hn : d.Name = e.Name) : d.Value = e.Value := by
  rw [List.foldl_append, List.foldl_cons] at hd
  have := mem_foldl_applyEnv_of_not_configured post _ d hd (fun e' he' => hn ▸ hpost e' he')
  exact value_of_mem_applyEnv e _ d this hn

/-- The fold leaves an entry whose name is not configured at its position. -/
theorem foldl_applyEnv_getElem?_unchanged (cfg : List corev1.EnvVar) (l : List EnvVar)
    (i : Nat) (d : EnvVar) (hi : l[i]? = some d) (hn : ∀ e ∈ cfg, e.Name ≠ d.Name) :
    (cfg.foldl (fun acc e => applyEnv e acc) l)[i]? = some d := by
  induction cfg generalizing l with
  | nil => exact hi
  | cons e rest ih =>
    rw [List.foldl_cons]
    apply ih _ _ (fun e' he' => hn e' (by simp [he']))
    have hne : d.Name ≠ e.Name := fun h => hn e (by simp) h.symm
    have hlt : i < l.length := by
      by_contra hge
      rw [List.getElem?_eq_none (by omega)] at hi
      cases hi
    by_cases h : e.Name ∈ l.map (fun d => d.Name)
    · rw [applyEnv_of_present e l h, List.getElem?_map, hi]
      simp [setEnvValue_of_ne _ _ _ hne]
    · rw [applyEnv_of_absent e l h, List.getElem?_append_left hlt, hi]

/-- The names after the fold: the names before, then the absent configured names,
each once, ordered by first declaration. -/
theorem foldl_applyEnv_names (cfg : List corev1.EnvVar) (l : List EnvVar) :
    ∃ app : List String,
      (cfg.foldl (fun acc e => applyEnv e acc) l).map (fun d => d.Name)
        = l.map (fun d => d.Name) ++ app
      ∧ app.Nodup
      ∧ (∀ n, n ∈ app ↔ n ∈ cfg.map (fun e => e.Name) ∧ n ∉ l.map (fun d => d.Name))
      ∧ app.Pairwise (fun a b =>
          (cfg.map (fun e => e.Name)).indexOf a < (cfg.map (fun e => e.Name)).indexOf b) := by
  induction cfg generalizing l with
  | nil => exact ⟨[], by simp⟩
  | cons e rest ih =>
    obtain ⟨app, hnames, hnodup, hmem, hpair⟩ := ih (applyEnv e l)
    rw [applyEnv_names] at hnames
    by_cases h : e.Name ∈ l.map (fun d => d.Name)
    · rw [if_pos h, List.append_nil] at hnames
      have hmem' : ∀ n, n ∈ app ↔ n ∈ rest.map (fun e => e.Name) ∧ n ∉ l.map (fun d => d.Name) := by
        intro n
        rw [hmem n, applyEnv_names, if_pos h, List.append_nil]
      refine ⟨app, by rw [List.foldl_cons]; exact hnames, hnodup, ?_, ?_⟩
      · intro n
        rw [hmem' n, List.map_cons, List.mem_cons]
        constructor
        · rintro ⟨h1, h2⟩
          exact ⟨Or.inr h1, h2⟩
        · rintro ⟨h1 | h1, h2⟩
          · exact absurd (h1 ▸ h) h2
          · exact ⟨h1, h2⟩
      · refine hpair.imp_of_mem ?_
        intro a b ha hb hab
        have hae : e.Name ≠ a := fun e' => ((hmem' a).mp ha).2 (e' ▸ h)
        have hbe : e.Name ≠ b := fun e' => ((hmem' b).mp hb).2 (e' ▸ h)
        rw [List.map_cons, List.indexOf_cons_ne _ hae, List.indexOf_cons_ne _ hbe]
        omega
    · rw [if_neg h] at hnames
      have hmem' : ∀ n, n ∈ app ↔
          n ∈ rest.map (fun e => e.Name) ∧ n ∉ l.map (fun d => d.Name) ∧ n ≠ e.Name := by
        intro n
        rw [hmem n, applyEnv_names, if_neg h]
        simp
      refine ⟨e.Name :: app, ?_, ?_, ?_, ?_⟩
      · rw [List.foldl_cons, hnames]; simp
      · rw [List.nodup_cons]
        exact ⟨fun hin => ((hmem' _).mp hin).2.2 rfl, hnodup⟩
      · intro n
        rw [List.mem_cons, hmem' n, List.map_cons, List.mem_cons]
        constructor
        · rintro (h1 | ⟨h1, h2, _⟩)
          · exact ⟨Or.inl h1, h1 ▸ h⟩
          · exact ⟨Or.inr h1, h2⟩
        · rintro ⟨h1 | h1, h2⟩
          · exact Or.inl h1
          · by_cases hne : n = e.Name
            · exact Or.inl hne
            · exact Or.inr ⟨h1, h2, hne⟩
      · rw [List.pairwise_cons]
        constructor
        · intro b hb
          have hbe : e.Name ≠ b := fun e' => ((hmem' b).mp hb).2.2 e'.symm
          rw [List.map_cons, List.indexOf_cons_self, List.indexOf_cons_ne _ hbe]
          omega
        · refine hpair.imp_of_mem ?_
          intro a b ha hb hab
          have hae : e.Name ≠ a := fun e' => ((hmem' a).mp ha).2.2 e'.symm
          have hbe : e.Name ≠ b := fun e' => ((hmem' b).mp hb).2.2 e'.symm
          rw [List.map_cons, List.indexOf_cons_ne _ hae, List.indexOf_cons_ne _ hbe]
          omega

/-- Replacing an empty attribute bag by a fresh one does not change the bag. -/
theorem attrs_norm (a : attributes.Attributes) : (if a.length = 0 then [] else a) = a := by
  cases a <;> simp

/-- Variant of `attrs_norm` with the emptiness test written as an equation. -/
theorem attrs_norm2 (a : attributes.Attributes) : (if a = [] then [] else a) = a := by
  cases a <;> simp

/-- The fields of the component after a successful loop body. -/
theorem mergeComponent_ok (spec : HASComponentSpec) (i : Nat) (c c' : Component) (u : Bool)
    (h : mergeComponent spec i c = .ok (c', u)) :
    c'.Name = c.Name
    ∧ c'.Container.Image = c.Container.Image
    ∧ mergeEnv spec.Env c.Container.Env = .ok c'.Container.Env
    ∧ c'.Container.Endpoints =
        (if i = 0 ∧ spec.TargetPort > 0 then setTargetPort spec.TargetPort c.Container.Endpoints
         else c.Container.Endpoints)
    ∧ c'.Attributes =
        (if spec.Replicas > 0 then
          attributes.PutInteger
            (if spec.Route ≠ "" then
              attributes.PutString c.Attributes "appstudio/has.route" spec.Route
             else c.Attributes) "appstudio/has.replicas" spec.Replicas
         else if spec.Route ≠ "" then
              attributes.PutString c.Attributes "appstudio/has.route" spec.Route
             else c.Attributes)
    ∧ u = (decide (spec.Route ≠ "") || decide (spec.Replicas > 0)
            || (decide (i = 0 ∧ spec.TargetPort > 0) && !c.Container.Endpoints.isEmpty)
            || !spec.Env.isEmpty) := by
  unfold mergeComponent at h
  cases he : mergeEnv spec.Env c.Container.Env with
  | error e =>
    by_cases h1 : spec.Route = "" <;> by_cases h2 : spec.Replicas > 0 <;>
      by_cases h3 : (i = 0 ∧ spec.TargetPort > 0) <;> simp [h1, h2, h3, he] at h
  | ok envs =>
    by_cases h1 : spec.Route = "" <;> by_cases h2 : spec.Replicas > 0 <;>
      by_cases h3 : (i = 0 ∧ spec.TargetPort > 0) <;>
      simp only [h1, h2, h3, he, attrs_norm, ne_eq, not_true_eq_false, not_false_eq_true,
        if_true, if_false, Bool.false_or, Bool.true_or, and_self, Except.ok.injEq,
        Prod.mk.injEq] at h <;>
      obtain ⟨rfl, rfl⟩ := h <;>
      simp [h1, h2, h3, attrs_norm, attrs_norm2]

/-- Closed form of the loop body. -/
theorem mergeComponent_eq (spec : HASComponentSpec) (i : Nat) (c : Component) :
    mergeComponent spec i c =
      match mergeEnv spec.Env c.Container.Env with
      | .error err => .error err
      | .ok envs =>
        .ok ({ Name := c.Name,
               Attributes :=
                (if spec.Replicas > 0 then
                  attributes.PutInteger
                    (if spec.Route ≠ "" then
                      attributes.PutString c.Attributes "appstudio/has.route" spec.Route
                     else c.Attributes) "appstudio/has.replicas" spec.Replicas
                 else if spec.Route ≠ "" then
                      attributes.PutString c.Attributes "appstudio/has.route" spec.Route
                     else c.Attributes),
               Container :=
                { Image := c.Container.Image,
                  Env := envs,
                  Endpoints :=
                    (if i = 0 ∧ spec.TargetPort > 0 then
                      setTargetPort spec.TargetPort c.Container.Endpoints
                     else c.Container.Endpoints) } },
          (decide (spec.Route ≠ "") || decide (spec.Replicas > 0)
            || (decide (i = 0 ∧ spec.TargetPort > 0) && !c.Container.Endpoints.isEmpty)
            || !spec.Env.isEmpty)) := by
  cases hm : mergeComponent spec i c with
  | error err =>
    cases he : mergeEnv spec.Env c.Container.Env with
    | error err' =>
      unfold mergeComponent at hm
      by_cases h1 : spec.Route = "" <;> by_cases h2 : spec.Replicas > 0 <;>
        by_cases h3 : (i = 0 ∧ spec.TargetPort > 0) <;> simp [h1, h2, h3, he] at hm <;>
        simp [hm]
    | ok envs =>
      unfold mergeComponent at hm
      by_cases h1 : spec.Route = "" <;> by_cases h2 : spec.Replicas > 0 <;>
        by_cases h3 : (i = 0 ∧ spec.TargetPort > 0) <;> simp [h1, h2, h3, he] at hm
  | ok r =>
    obtain ⟨c', u⟩ := r
    obtain ⟨h1, h2, h3, h4, h5, h6⟩ := mergeComponent_ok spec i c c' u hm
    rw [h3]
    obtain ⟨n, a, ⟨im, en, ep⟩⟩ := c'
    simp only at h1 h2 h4 h5 h6
    simp only [h1, h2, h4, h5, h6]

/-- The loop body is the same at every index above 0. -/
theorem mergeComponent_succ (spec : HASComponentSpec) (k : Nat) (c : Component) :
    mergeComponent spec (k + 1) c = mergeComponent spec 1 c := by
  rw [mergeComponent_eq, mergeComponent_eq]
  simp

/-- When no update is required the component is unchanged. -/
theorem mergeComponent_not_required (spec : HASComponentSpec) (i : Nat) (c c' : Component)
    (h : mergeComponent spec i c = .ok (c', false)) : c' = c := by
  obtain ⟨h1, h2, h3, h4, h5, h6⟩ := mergeComponent_ok spec i c c' false h
  have h6 := h6.symm
  simp only [Bool.or_eq_false_iff, Bool.and_eq_false_iff, decide_eq_false_iff_not, ne_eq,
    not_not, Bool.not_eq_false', List.isEmpty_iff] at h6
  obtain ⟨⟨⟨hr, hp⟩, he⟩, henv⟩ := h6
  rw [henv] at h3
  simp only [mergeEnv, Except.ok.injEq] at h3
  have h4' : c'.Container.Endpoints = c.Container.Endpoints := by
    rw [h4]
    rcases he with he | he
    · rw [if_neg he]
    · simp [he, setTargetPort]
  have h5' : c'.Attributes = c.Attributes := by
    rw [h5, if_neg hp]; simp [hr]
  obtain ⟨n, a, ⟨im, en, ep⟩⟩ := c'
  obtain ⟨n0, a0, ⟨im0, en0, ep0⟩⟩ := c
  simp_all

/-- One iteration of the loop replaces the visited entry by the merged component. -/
theorem mergeLoop_step (spec : HASComponentSpec) (done rest : List Component) (c c' : Component)
    (u : Bool) (h : mergeComponent spec done.length c = .ok (c', u)) :
    mergeLoop spec done.length (c :: rest) (done ++ c :: rest)
      = mergeLoop spec (done ++ [c']).length rest ((done ++ [c']) ++ rest) := by
  have hlen : (done ++ [c']).length = done.length + 1 := by simp
  rw [hlen]
  conv_lhs => unfold mergeLoop
  simp only [h]
  cases u with
  | true =>
    simp only [if_true, UpdateComponent]
    congr 1
    simp
  | false =>
    have := mergeComponent_not_required spec _ c c' h
    subst this
    simp

/-- The loop from an index above 0 merges the remaining entries one by one. -/
theorem mergeLoop_tail (spec : HASComponentSpec) (rest done out : List Component)
    (hdone : done ≠ []) :
    mergeLoop spec done.length rest (done ++ rest) = .ok out ↔
      ∃ merged, out = done ++ merged ∧
        List.Forall₂ (fun c c' => ∃ u, mergeComponent spec 1 c = .ok (c', u)) rest merged := by
  induction rest generalizing done with
  | nil =>
    simp only [mergeLoop, List.append_nil, Except.ok.injEq, List.forall₂_nil_left_iff]
    constructor
    · intro h; exact ⟨[], by simp [h], rfl⟩
    · rintro ⟨m, h, rfl⟩; simp [h]
  | cons c rest ih =>
    obtain ⟨k, hk⟩ : ∃ k, done.length = k + 1 :=
      Nat.exists_eq_succ_of_ne_zero (fun h => hdone (List.length_eq_zero.mp h))
    cases hm : mergeComponent spec done.length c with
    | error err =>
      constructor
      · intro h
        unfold mergeLoop at h
        simp [hm] at h
      · rintro ⟨merged, _, hf⟩
        cases hf with
        | cons hc _ =>
          obtain ⟨u, hu⟩ := hc
          rw [hk, mergeComponent_succ] at hm
          rw [hm] at hu
          cases hu
    | ok r =>
      obtain ⟨c', u⟩ := r
      rw [mergeLoop_step spec done rest c c' u hm, ih (done ++ [c']) (by simp)]
      rw [hk, mergeComponent_succ] at hm
      constructor
      · rintro ⟨merged, rfl, hf⟩
        exact ⟨c' :: merged, by simp, List.Forall₂.cons ⟨u, hm⟩ hf⟩
      · rintro ⟨merged, rfl, hf⟩
        cases hf with
        | @cons _ c'' _ ms hc hf =>
          obtain ⟨u', hu'⟩ := hc
          rw [hm] at hu'
          simp only [Except.ok.injEq, Prod.mk.injEq] at hu'
          obtain ⟨rfl, _⟩ := hu'
          exact ⟨ms, by simp, hf⟩

/-- The merge of a descriptor without container entry. -/
theorem mergeComponents_nil (spec : HASComponentSpec) : mergeComponents spec [] = .ok [] := rfl

/-- The merge of a non-empty list: the first entry at index 0, the others at an
index above 0. -/
theorem mergeComponents_cons (spec : HASComponentSpec) (c : Component) (cs out : List Component) :
    mergeComponents spec (c :: cs) = .ok out ↔
      ∃ c' cs', out = c' :: cs' ∧ (∃ u, mergeComponent spec 0 c = .ok (c', u)) ∧
        List.Forall₂ (fun c c' => ∃ u, mergeComponent spec 1 c = .ok (c', u)) cs cs' := by
  unfold mergeComponents
  cases hm : mergeComponent spec 0 c with
  | error err =>
    constructor
    · intro h
      unfold mergeLoop at h
      simp [hm] at h
    · rintro ⟨c', cs', _, ⟨u, hu⟩, _⟩
      cases hu
  | ok r =>
    obtain ⟨c', u⟩ := r
    have := mergeLoop_step spec [] cs c c' u hm
    simp only [List.nil_append, List.length_nil] at this
    rw [this]
    have ht := mergeLoop_tail spec cs [c'] out (by simp)
    simp only [List.length_singleton, List.singleton_append, List.length_cons, List.length_nil,
      zero_add] at ht ⊢
    rw [ht]
    constructor
    · rintro ⟨merged, rfl, hf⟩
      exact ⟨c', merged, rfl, ⟨u, rfl⟩, hf⟩
    · rintro ⟨c'', cs', rfl, ⟨u', hu'⟩, hf⟩
      simp only [Except.ok.injEq, Prod.mk.injEq] at hu'
      obtain ⟨rfl, _⟩ := hu'
      exact ⟨cs', rfl, hf⟩

/-- Setting values keeps the name. -/
theorem foldl_setEnvValue_name (cfg : List corev1.EnvVar) (d : EnvVar) :
    (cfg.foldl (fun d e => setEnvValue e.Name e.Value d) d).Name = d.Name := by
  induction cfg generalizing d with
  | nil => rfl
  | cons e rest ih => rw [List.foldl_cons, ih, setEnvValue_name]

/-- Setting the values of other names changes nothing. -/
theorem foldl_setEnvValue_of_not_configured (cfg : List corev1.EnvVar) (d : EnvVar)
    (h : ∀ e ∈ cfg, e.Name ≠ d.Name) :
    cfg.foldl (fun d e => setEnvValue e.Name e.Value d) d = d := by
  induction cfg generalizing d with
  | nil => rfl
  | cons e rest ih =>
    rw [List.foldl_cons, setEnvValue_of_ne _ _ _ (fun h' => h e (by simp) h'.symm)]
    exact ih d (fun e' he' => h e' (by simp [he']))

/-- Setting the configured values in order leaves the value of the last occurrence. -/
theorem foldl_setEnvValue_last (pre post : List corev1.EnvVar) (e : corev1.EnvVar) (d : EnvVar)
    (hn : d.Name = e.Name) (hpost : ∀ e' ∈ post, e'.Name ≠ e.Name) :
    (pre ++ e :: post).foldl (fun d e => setEnvValue e.Name e.Value d) d
      = { Name := e.Name, Value := e.Value } := by
  rw [List.foldl_append, List.foldl_cons]
  have h1 : (pre.foldl (fun d e => setEnvValue e.Name e.Value d) d).Name = e.Name := by
    rw [foldl_setEnvValue_name, hn]
  rw [setEnvValue_of_eq _ _ _ h1]
  exact foldl_setEnvValue_of_not_configured post _ hpost

/-- A configured name has a last occurrence. -/
theorem exists_last_occurrence (cfg : List corev1.EnvVar) (n : String)
    (h : n ∈ cfg.map (fun e => e.Name)) :
    ∃ pre e post, cfg = pre ++ e :: post ∧ e.Name = n ∧ ∀ e' ∈ post, e'.Name ≠ n := by
  induction cfg with
  | nil => simp at h
  | cons e rest ih =>
    by_cases hr : n ∈ rest.map (fun e => e.Name)
    · obtain ⟨pre, e0, post, rfl, h1, h2⟩ := ih hr
      exact ⟨e :: pre, e0, post, rfl, h1, h2⟩
    · have he : e.Name = n := by
        rw [List.map_cons, List.mem_cons] at h
        rcases h with h' | h'
        · exact h'.symm
        · exact absurd h' hr
      refine ⟨[], e, rest, rfl, he, ?_⟩
      intro e' he' hn'
      exact hr (List.mem_map.mpr ⟨e', he', hn'⟩)

/-- When every configured name is present the fold only sets values. -/
theorem foldl_applyEnv_of_present (cfg : List corev1.EnvVar) (l : List EnvVar)
    (h : ∀ e ∈ cfg, e.Name ∈ l.map (fun d => d.Name)) :
    cfg.foldl (fun acc e => applyEnv e acc) l
      = l.map (fun d => cfg.foldl (fun d e => setEnvValue e.Name e.Value d) d) := by
  induction cfg generalizing l with
  | nil => simp
  | cons e rest ih =>
    rw [List.foldl_cons, applyEnv_of_present e l (h e (by simp))]
    rw [ih]
    · rw [List.map_map]
      rfl
    · intro e' he'
      have := h e' (by simp [he'])
      rw [List.map_map]
      have hcongr : (fun d : EnvVar => d.Name) ∘ setEnvValue e.Name e.Value
          = fun d => d.Name := by
        funext d; exact setEnvValue_name _ _ d
      rw [hcongr]; exact this

/-- After the fold every configured name is present. -/
theorem foldl_applyEnv_present (cfg : List corev1.EnvVar) (l : List EnvVar) :
    ∀ e ∈ cfg, e.Name ∈ (cfg.foldl (fun acc e => applyEnv e acc) l).map (fun d => d.Name) := by
  intro e he
  obtain ⟨app, hnames, _, hmem, _⟩ := foldl_applyEnv_names cfg l
  rw [hnames, List.mem_append]
  by_cases h : e.Name ∈ l.map (fun d => d.Name)
  · exact Or.inl h
  · exact Or.inr ((hmem _).mpr ⟨List.mem_map.mpr ⟨e, he, rfl⟩, h⟩)

/-- The fold applied to its own result changes nothing. -/
theorem foldl_applyEnv_idempotent (cfg : List corev1.EnvVar) (l : List EnvVar) :
    cfg.foldl (fun acc e => applyEnv e acc) (cfg.foldl (fun acc e => applyEnv e acc) l)
      = cfg.foldl (fun acc e => applyEnv e acc) l := by
  rw [foldl_applyEnv_of_present cfg _ (foldl_applyEnv_present cfg l)]
  conv_rhs => rw [← List.map_id (cfg.foldl (fun acc e => applyEnv e acc) l)]
  apply List.map_congr_left
  intro d hd
  simp only [id]
  by_cases hn : d.Name ∈ cfg.map (fun e => e.Name)
  · obtain ⟨pre, e, post, hcfg, he, hpost⟩ := exists_last_occurrence cfg d.Name hn
    have hv : d.Value = e.Value := by
      apply foldl_applyEnv_last_value pre post e l (fun e' he' => he ▸ hpost e' he') d _ he.symm
      rw [← hcfg]; exact hd
    rw [hcfg, foldl_setEnvValue_last pre post e d he.symm (fun e' he' => he ▸ hpost e' he')]
    cases d
    simp_all
  · apply foldl_setEnvValue_of_not_configured
    intro e he h'
    exact hn (List.mem_map.mpr ⟨e, he, h'⟩)

/-- The loop over the configuration applied to its own result returns it unchanged. -/
theorem mergeEnv_idempotent (cfg : List corev1.EnvVar) (l out : List EnvVar)
    (h : mergeEnv cfg l = .ok out) : mergeEnv cfg out = .ok out := by
  have hlit := mergeEnv_ok_literal cfg l out h
  rw [mergeEnv_literal cfg l hlit] at h
  simp only [Except.ok.injEq] at h
  rw [mergeEnv_literal cfg out hlit, ← h, foldl_applyEnv_idempotent]

end controllers

namespace attributes

/-- A key holds the value assigned to it. -/
theorem get_put_self (k : String) (v : Value) (a : Attributes) : get k (put k v a) = some v := by
  induction a with
  | nil => simp [put, get]
  | cons p rest ih =>
    obtain ⟨k', v'⟩ := p
    by_cases h : k' = k <;> simp [put, get, h, ih]

/-- Assigning a key does not change the value of another key. -/
theorem get_put_of_ne (k k' : String) (v : Value) (a : Attributes) (h : k ≠ k') :
    get k (put k' v a) = get k a := by
  induction a with
  | nil => simp [put, get, Ne.symm h]
  | cons p rest ih =>
    obtain ⟨k0, v0⟩ := p
    by_cases h0 : k0 = k'
    · subst h0
      simp [put, get, Ne.symm h]
    · by_cases h1 : k0 = k
      · subst h1
        simp [put, get, h0]
      · simp [put, get, h0, h1, ih]

/-- Assigning a key the value it holds changes nothing. -/
theorem put_of_get (k : String) (v : Value) (a : Attributes) (h : get k a = some v) :
    put k v a = a := by
  induction a with
  | nil => simp [get] at h
  | cons p rest ih =>
    obtain ⟨k0, v0⟩ := p
    by_cases h0 : k0 = k
    · subst h0
      simp [get] at h
      simp [put, h]
    · simp [get, h0] at h
      simp [put, h0, ih h]

end attributes

namespace controllers
open devfileAPIV1 appstudiov1alpha1

/-- Setting the target port twice is setting it once. -/
theorem setTargetPort_idempotent (p : Int) (l : List Endpoint) :
    setTargetPort p (setTargetPort p l) = setTargetPort p l := by
  simp [setTargetPort]

/-- The attribute part of the loop body applied to its own result changes nothing. -/
theorem mergeAttributes_idempotent (spec : HASComponentSpec) (a : attributes.Attributes) :
    (if spec.Replicas > 0 then
        attributes.PutInteger
          (if spec.Route ≠ "" then
            attributes.PutString
              (if spec.Replicas > 0 then
                attributes.PutInteger
                  (if spec.Route ≠ "" then
                    attributes.PutString a "appstudio/has.route" spec.Route
                   else a) "appstudio/has.replicas" spec.Replicas
               else if spec.Route ≠ "" then
                    attributes.PutString a "appstudio/has.route" spec.Route
                   else a) "appstudio/has.route" spec.Route
           else
             (if spec.Replicas > 0 then
                attributes.PutInteger
                  (if spec.Route ≠ "" then
                    attributes.PutString a "appstudio/has.route" spec.Route
                   else a) "appstudio/has.replicas" spec.Replicas
               else if spec.Route ≠ "" then
                    attributes.PutString a "appstudio/has.route" spec.Route
                   else a)) "appstudio/has.replicas" spec.Replicas
       else if spec.Route ≠ "" then
            attributes.PutString
              (if spec.Replicas > 0 then
                attributes.PutInteger
                  (if spec.Route ≠ "" then
                    attributes.PutString a "appstudio/has.route" spec.Route
                   else a) "appstudio/has.replicas" spec.Replicas
               else if spec.Route ≠ "" then
                    attributes.PutString a "appstudio/has.route" spec.Route
                   else a) "appstudio/has.route" spec.Route
           else
             (if spec.Replicas > 0 then
                attributes.PutInteger
                  (if spec.Route ≠ "" then
                    attributes.PutString a "appstudio/has.route" spec.Route
                   else a) "appstudio/has.replicas" spec.Replicas
               else if spec.Route ≠ "" then
                    attributes.PutString a "appstudio/has.route" spec.Route
                   else a))
      = (if spec.Replicas > 0 then
          attributes.PutInteger
            (if spec.Route ≠ "" then
              attributes.PutString a "appstudio/has.route" spec.Route
             else a) "appstudio/has.replicas" spec.Replicas
         else if spec.Route ≠ "" then
              attributes.PutString a "appstudio/has.route" spec.Route
             else a) := by
  have hk : ("appstudio/has.route" : String) ≠ "appstudio/has.replicas" := by decide
  by_cases h1 : spec.Route = "" <;> by_cases h2 : spec.Replicas > 0 <;>
    simp only [h1, h2, ne_eq, not_true_eq_false, not_false_eq_true, if_true, if_false,
      attributes.PutString, attributes.PutInteger]
  · exact attributes.put_of_get _ _ _ (attributes.get_put_self _ _ _)
  · have e1 : attributes.put "appstudio/has.route" (.string spec.Route)
        (attributes.put "appstudio/has.replicas" (.integer spec.Replicas)
          (attributes.put "appstudio/has.route" (.string spec.Route) a))
        = attributes.put "appstudio/has.replicas" (.integer spec.Replicas)
          (attributes.put "appstudio/has.route" (.string spec.Route) a) := by
      apply attributes.put_of_get
      rw [attributes.get_put_of_ne _ _ _ _ hk, attributes.get_put_self]
    rw [e1]
    exact attributes.put_of_get _ _ _ (attributes.get_put_self _ _ _)
  · exact attributes.put_of_get _ _ _ (attributes.get_put_self _ _ _)

/-- The loop body applied to its own result returns it unchanged. -/
theorem mergeComponent_idempotent (spec : HASComponentSpec) (i : Nat) (c c' : Component)
    (u : Bool) (h : mergeComponent spec i c = .ok (c', u)) :
    ∃ u', mergeComponent spec i c' = .ok (c', u') := by
  obtain ⟨h1, h2, h3, h4, h5, h6⟩ := mergeComponent_ok spec i c c' u h
  rw [mergeComponent_eq, mergeEnv_idempotent _ _ _ h3]
  refine ⟨_, congrArg Except.ok (Prod.ext ?_ rfl)⟩
  obtain ⟨n, a, ⟨im, en, ep⟩⟩ := c'
  simp only at h1 h2 h4 h5 h6 ⊢
  have ha := mergeAttributes_idempotent spec c.Attributes
  rw [← h5] at ha
  have hep : (if i = 0 ∧ spec.TargetPort > 0 then setTargetPort spec.TargetPort ep else ep)
      = ep := by
    by_cases hc : i = 0 ∧ spec.TargetPort > 0
    · rw [if_pos hc] at h4 ⊢
      rw [h4, setTargetPort_idempotent]
    · rw [if_neg hc]
  rw [ha, hep]

/-- With literal entries only, the loop body succeeds. -/
theorem mergeComponent_total (spec : HASComponentSpec) (i : Nat) (c : Component)
    (hlit : ∀ e ∈ spec.Env, e.ValueFrom = none) :
    ∃ c' u, mergeComponent spec i c = .ok (c', u) := by
  rw [mergeComponent_eq, mergeEnv_literal _ _ hlit]
  exact ⟨_, _, rfl⟩

/-- A total relation relates every list to some list. -/
theorem forall₂_total {α β : Type} (R : α → β → Prop) (l : List α) (h : ∀ a, ∃ b, R a b) :
    ∃ l', List.Forall₂ R l l' := by
  induction l with
  | nil => exact ⟨[], List.Forall₂.nil⟩
  | cons a l ih =>
    obtain ⟨l', hl'⟩ := ih
    obtain ⟨b, hb⟩ := h a
    exact ⟨b :: l', List.Forall₂.cons hb hl'⟩

/-- Pointwise related lists: a relation that holds on the diagonal of its range
relates the second list to itself. -/
theorem forall₂_diag {α : Type} (R : α → α → Prop) (l l' : List α)
    (h : List.Forall₂ R l l') (hR : ∀ a b, R a b → R b b) : List.Forall₂ R l' l' := by
  induction h with
  | nil => exact List.Forall₂.nil
  | cons hab _ ih => exact List.Forall₂.cons (hR _ _ hab) ih

/-- Pointwise related lists are related at every index. -/
theorem forall₂_getElem? {α β : Type} (R : α → β → Prop) (l : List α) (l' : List β)
    (h : List.Forall₂ R l l') (i : Nat) (a : α) (b : β)
    (ha : l[i]? = some a) (hb : l'[i]? = some b) : R a b := by
  induction h generalizing i with
  | nil => simp at ha
  | cons hab _ ih =>
    cases i with
    | zero =>
      simp only [List.getElem?_cons_zero, Option.some.injEq] at ha hb
      subst ha hb
      exact hab
    | succ k =>
      simp only [List.getElem?_cons_succ] at ha hb
      exact ih k ha hb

/-- With literal entries only, the merge succeeds. -/
theorem mergeComponents_total (spec : HASComponentSpec) (comps : List Component)
    (hlit : ∀ e ∈ spec.Env, e.ValueFrom = none) :
    ∃ out, mergeComponents spec comps = .ok out := by
  cases comps with
  | nil => exact ⟨[], rfl⟩
  | cons c cs =>
    obtain ⟨c', u, hc⟩ := mergeComponent_total spec 0 c hlit
    obtain ⟨cs', hcs⟩ := forall₂_total
      (fun c c' => ∃ u, mergeComponent spec 1 c = Except.ok (c', u)) cs
      (fun a => by
        obtain ⟨b, u, h⟩ := mergeComponent_total spec 1 a hlit
        exact ⟨b, u, h⟩)
    exact ⟨c' :: cs', (mergeComponents_cons spec c cs _).mpr ⟨c', cs', rfl, ⟨u, hc⟩, hcs⟩⟩

/-- After a successful merge every entry is the loop body of the entry at its index. -/
theorem mergeComponents_getElem? (spec : HASComponentSpec) (comps out : List Component)
    (h : mergeComponents spec comps = .ok out) :
    out.length = comps.length ∧
      ∀ i c c', comps[i]? = some c → out[i]? = some c' →
        ∃ u, mergeComponent spec i c = .ok (c', u) := by
  cases comps with
  | nil =>
    rw [mergeComponents_nil] at h
    simp only [Except.ok.injEq] at h
    subst h
    simp
  | cons c cs =>
    obtain ⟨c0, cs', rfl, hc, hcs⟩ := (mergeComponents_cons spec c cs out).mp h
    refine ⟨by simp [hcs.length_eq], ?_⟩
    intro i a b ha hb
    cases i with
    | zero =>
      simp only [List.getElem?_cons_zero, Option.some.injEq] at ha hb
      subst ha hb
      exact hc
    | succ k =>
      simp only [List.getElem?_cons_succ] at ha hb
      rw [mergeComponent_succ]
      exact forall₂_getElem? _ cs cs' hcs k a b ha hb

/-- The result of a successful merge is a fixed point of the merge. -/
theorem mergeComponents_fixed_of_ok (spec : HASComponentSpec) (comps out : List Component)
    (h : mergeComponents spec comps = .ok out) : mergeComponents spec out = .ok out := by
  cases comps with
  | nil =>
    rw [mergeComponents_nil] at h
    simp only [Except.ok.injEq] at h
    subst h
    rfl
  | cons c cs =>
    obtain ⟨c0, cs', rfl, ⟨u, hc⟩, hcs⟩ := (mergeComponents_cons spec c cs out).mp h
    refine (mergeComponents_cons spec c0 cs' _).mpr ⟨c0, cs', rfl, ?_, ?_⟩
    · exact mergeComponent_idempotent spec 0 c c0 u hc
    · apply forall₂_diag _ cs cs' hcs
      rintro a b ⟨u, hu⟩
      exact mergeComponent_idempotent spec 1 a b u hu

/-- C5. For every list of container entries and every configuration whose
environment entries are all literal, the merge succeeds, and the merge applied to
its own result with the same configuration succeeds with container entries
(attributes, endpoints, environment lists) identical to those after the first
merge. -/
theorem mergeComponents_idempotent (spec : HASComponentSpec) (comps : List Component)
    (hlit : ∀ e ∈ spec.Env, e.ValueFrom = none) :
    ∃ out, mergeComponents spec comps = .ok out ∧ mergeComponents spec out = .ok out := by
  obtain ⟨out, h⟩ := mergeComponents_total spec comps hlit
  exact ⟨out, h, mergeComponents_fixed_of_ok spec comps out h⟩

/-- Witness of C5 on a configuration with route, replicas, target port and a
repeated environment name. -/
theorem mergeComponents_idempotent_witness :
    (∀ e ∈ mergeSpec.Env, e.ValueFrom = none)
    ∧ ∃ out, mergeComponents mergeSpec mergeDoc = .ok out
        ∧ mergeComponents mergeSpec out = .ok out :=
  ⟨by decide, mergeComponents_idempotent mergeSpec mergeDoc (by decide)⟩

/-- C6. For every container entry `c` of the descriptor and every configuration
whose environment entries are all literal, the merge succeeds and the entry `c'`
that replaces `c` satisfies: every configured name is present; an entry that has
a configured name has the value of the last occurrence of that name in the
configuration; the names of the environment list are the names before the merge,
in their positions, followed by the configured names that were absent, each
once and in the order of their first declaration, so that no name that was
present is duplicated; and an entry whose name is not configured is unchanged at
its position. -/
theorem mergeComponents_env (spec : HASComponentSpec) (comps : List Component) (i : Nat)
    (c : Component) (hlit : ∀ e ∈ spec.Env, e.ValueFrom = none) (hc : comps[i]? = some c) :
    ∃ out c', mergeComponents spec comps = .ok out ∧ out[i]? = some c'
      ∧ (∀ e ∈ spec.Env, ∃ d ∈ c'.Container.Env, d.Name = e.Name)
      ∧ (∀ pre e post, spec.Env = pre ++ e :: post → (∀ e' ∈ post, e'.Name ≠ e.Name) →
          ∀ d ∈ c'.Container.Env, d.Name = e.Name → d.Value = e.Value)
      ∧ (∃ app : List String,
          c'.Container.Env.map (fun d => d.Name) = c.Container.Env.map (fun d => d.Name) ++ app
          ∧ app.Nodup
          ∧ (∀ n, n ∈ app ↔
              n ∈ spec.Env.map (fun e => e.Name) ∧ n ∉ c.Container.Env.map (fun d => d.Name))
          ∧ app.Pairwise (fun a b =>
              (spec.Env.map (fun e => e.Name)).indexOf a
                < (spec.Env.map (fun e => e.Name)).indexOf b))
      ∧ (∀ n ∈ c.Container.Env.map (fun d => d.Name),
          (c'.Container.Env.map (fun d => d.Name)).count n
            = (c.Container.Env.map (fun d => d.Name)).count n)
      ∧ (∀ (j : Nat) (d : EnvVar), c.Container.Env[j]? = some d →
          (∀ e ∈ spec.Env, e.Name ≠ d.Name) → c'.Container.Env[j]? = some d) := by
  obtain ⟨out, hout⟩ := mergeComponents_total spec comps hlit
  obtain ⟨hlen, hget⟩ := mergeComponents_getElem? spec comps out hout
  have hi : i < out.length := by
    rw [hlen]
    by_contra hge
    rw [List.getElem?_eq_none (by omega)] at hc
    cases hc
  obtain ⟨u, hu⟩ := hget i c out[i] hc (List.getElem?_eq_getElem hi)
  have henv := (mergeComponent_ok spec i c out[i] u hu).2.2.1
  rw [mergeEnv_literal _ _ hlit] at henv
  simp only [Except.ok.injEq] at henv
  refine ⟨out, out[i], hout, List.getElem?_eq_getElem hi, ?_, ?_, ?_, ?_, ?_⟩
  · intro e he
    have := foldl_applyEnv_present spec.Env c.Container.Env e he
    rw [henv, List.mem_map] at this
    obtain ⟨d, hd, hn⟩ := this
    exact ⟨d, hd, hn⟩
  · intro pre e post hcfg hpost d hd hn
    rw [← henv, hcfg] at hd
    exact foldl_applyEnv_last_value pre post e _ hpost d hd hn
  · rw [← henv]
    exact foldl_applyEnv_names spec.Env c.Container.Env
  · intro n hn
    obtain ⟨app, hnames, _, hmem, _⟩ := foldl_applyEnv_names spec.Env c.Container.Env
    rw [← henv, hnames, List.count_append]
    have : n ∉ app := fun h => ((hmem n).mp h).2 hn
    rw [List.count_eq_zero_of_not_mem this, Nat.add_zero]
  · intro j d hj hn
    rw [← henv]
    exact foldl_applyEnv_getElem?_unchanged spec.Env _ j d hj hn

/-- Witness of C6 on the first container entry of a descriptor that has `BAR` and
`KEEP` and a configuration that declares `FOO`, `BAR`, `FOO`. -/
theorem mergeComponents_env_witness :
    (∀ e ∈ mergeSpec.Env, e.ValueFrom = none)
    ∧ ∃ out c', mergeComponents mergeSpec mergeDoc = .ok out ∧ out[0]? = some c'
      ∧ (∀ e ∈ mergeSpec.Env, ∃ d ∈ c'.Container.Env, d.Name = e.Name)
      ∧ (∀ pre e post, mergeSpec.Env = pre ++ e :: post → (∀ e' ∈ post, e'.Name ≠ e.Name) →
          ∀ d ∈ c'.Container.Env, d.Name = e.Name → d.Value = e.Value) := by
  refine ⟨by decide, ?_⟩
  obtain ⟨out, c', h1, h2, h3, h4, _⟩ :=
    mergeComponents_env mergeSpec mergeDoc 0
      ⟨"web", [], ⟨"web:latest", [⟨"BAR", "0"⟩, ⟨"KEEP", "k"⟩],
        [⟨"http", 3000, "public", "http", "/"⟩, ⟨"debug", 5858, "none", "tcp", ""⟩]⟩⟩
      (by decide) (by decide)
  exact ⟨out, c', h1, h2, h3, h4⟩

/-- The scenario of the specification: `FOO=bar` merged into a container without
`FOO` is appended; merging `FOO=baz` into the result updates the entry in place. -/
theorem mergeEnv_scenario :
    mergeEnv [⟨"FOO", "bar", none⟩] [⟨"PATH", "/bin"⟩] = .ok [⟨"PATH", "/bin"⟩, ⟨"FOO", "bar"⟩]
    ∧ mergeEnv [⟨"FOO", "baz", none⟩] [⟨"PATH", "/bin"⟩, ⟨"FOO", "bar"⟩]
        = .ok [⟨"PATH", "/bin"⟩, ⟨"FOO", "baz"⟩] := by
  decide

/-- C7. For every list of container entries: when the merge succeeds with
`out`, the lists have the same length; if `targetPort > 0` the endpoints of the
first entry (index 0) are the declared endpoints with their port set to
`targetPort`, so every endpoint has that port and the number and names of the
endpoints are unchanged; the endpoints of every entry at an index above 0 are
unchanged; and if `targetPort <= 0` the endpoints of every entry are unchanged.
The merge succeeds whenever all environment entries of the configuration are
literal. -/
theorem mergeComponents_targetPort (spec : HASComponentSpec) (comps : List Component) :
    (∀ out, mergeComponents spec comps = .ok out →
      out.length = comps.length
      ∧ (spec.TargetPort > 0 → ∀ c c' : Component, comps[0]? = some c → out[0]? = some c' →
          c'.Container.Endpoints
              = c.Container.Endpoints.map (fun ep => { ep with TargetPort := spec.TargetPort })
          ∧ (∀ ep ∈ c'.Container.Endpoints, ep.TargetPort = spec.TargetPort)
          ∧ c'.Container.Endpoints.length = c.Container.Endpoints.length
          ∧ c'.Container.Endpoints.map (fun ep => ep.Name)
              = c.Container.Endpoints.map (fun ep => ep.Name))
      ∧ (∀ (i : Nat) (c c' : Component), 0 < i → comps[i]? = some c → out[i]? = some c' →
          c'.Container.Endpoints = c.Container.Endpoints)
      ∧ (spec.TargetPort ≤ 0 → ∀ (i : Nat) (c c' : Component), comps[i]? = some c →
          out[i]? = some c' → c'.Container.Endpoints = c.Container.Endpoints))
    ∧ ((∀ e ∈ spec.Env, e.ValueFrom = none) → ∃ out, mergeComponents spec comps = .ok out) := by
  refine ⟨?_, mergeComponents_total spec comps⟩
  intro out hout
  obtain ⟨hlen, hget⟩ := mergeComponents_getElem? spec comps out hout
  refine ⟨hlen, ?_, ?_, ?_⟩
  · intro hp c c' hc hc'
    obtain ⟨u, hu⟩ := hget 0 c c' hc hc'
    have h4 := (mergeComponent_ok spec 0 c c' u hu).2.2.2.1
    rw [if_pos ⟨rfl, hp⟩] at h4
    rw [h4]
    refine ⟨rfl, ?_, ?_, ?_⟩
    · intro ep hep
      simp only [setTargetPort, List.mem_map] at hep
      obtain ⟨ep0, _, rfl⟩ := hep
      rfl
    · simp [setTargetPort]
    · simp [setTargetPort]
  · intro i c c' hi hc hc'
    obtain ⟨u, hu⟩ := hget i c c' hc hc'
    have h4 := (mergeComponent_ok spec i c c' u hu).2.2.2.1
    rw [if_neg (fun h => by omega)] at h4
    exact h4
  · intro hp i c c' hc hc'
    obtain ⟨u, hu⟩ := hget i c c' hc hc'
    have h4 := (mergeComponent_ok spec i c c' u hu).2.2.2.1
    rw [if_neg (fun h => by omega)] at h4
    exact h4

/-- The scenario of the specification: target port 8080 on a descriptor whose
first container declares two endpoints of distinct ports (3000 and 5858) gives
both endpoints port 8080 and leaves the endpoint of the second container (5432)
as it is. -/
theorem targetPort_scenario :
    ∃ out, mergeComponents mergeSpec mergeDoc = .ok out
      ∧ out.map (fun c => c.Container.Endpoints.map (fun ep => (ep.Name, ep.TargetPort)))
          = [[("http", 8080), ("debug", 8080)], [("pg", 5432)]] := by
  obtain ⟨out, h⟩ := mergeComponents_total mergeSpec mergeDoc (by decide)
  refine ⟨out, h, ?_⟩
  have h' : mergeComponents mergeSpec mergeDoc = .ok
      [ { Name := "web",
          Attributes := [("appstudio/has.route", .string "route"),
                         ("appstudio/has.replicas", .integer 2)],
          Container := { Image := "web:latest",
                         Env := [⟨"BAR", "1"⟩, ⟨"KEEP", "k"⟩, ⟨"FOO", "baz"⟩],
                         Endpoints := [⟨"http", 8080, "public", "http", "/"⟩,
                                       ⟨"debug", 8080, "none", "tcp", ""⟩] } },
        { Name := "db",
          Attributes := [("tier", .string "data"), ("appstudio/has.route", .string "route"),
                         ("appstudio/has.replicas", .integer 2)],
          Container := { Image := "db:latest", Env := [⟨"FOO", "baz"⟩, ⟨"BAR", "1"⟩],
                         Endpoints := [⟨"pg", 5432, "internal", "tcp", ""⟩] } } ] := by
    decide
  rw [h'] at h
  simp only [Except.ok.injEq] at h
  subst h
  decide

/-- C8 (counterexample). The configuration has an environment entry with an
indirect value source and the descriptor has no container entry: the merge
raises no error, and the whole pass returns no error and persists both
descriptors. -/
theorem valueFrom_unchecked_without_container :
    (∃ e ∈ valueFromSpec.Env, e.ValueFrom ≠ none)
    ∧ mergeComponents valueFromSpec [] = .ok []
    ∧ (Reconcile valueFromWorld ⟨"ns", "comp"⟩).err = none
    ∧ Call.UpdateComponentStatus
        { gitComponent with
          Spec := valueFromSpec, Status := { Devfile := "schemaVersion: 2.1.0" } }
        ∈ (Reconcile valueFromWorld ⟨"ns", "comp"⟩).calls := by
  decide

/-- C8 (amended). Whenever an environment entry of the configuration has an
indirect value source and the descriptor has at least one container entry, the
merge is rejected with the error "env.ValueFrom is not supported at the moment,
use env.value", whatever the position of that entry and whatever the container
entries are; with no container entry the merge checks nothing and succeeds; and
when no environment entry has an indirect value source the merge succeeds, so it
raises no error at all. -/
theorem mergeComponents_valueFrom (spec : HASComponentSpec) (comps : List Component) :
    ((∃ e ∈ spec.Env, e.ValueFrom ≠ none) → comps ≠ [] →
      mergeComponents spec comps
        = .error "env.ValueFrom is not supported at the moment, use env.value")
    ∧ (comps = [] → mergeComponents spec comps = .ok [])
    ∧ ((∀ e ∈ spec.Env, e.ValueFrom = none) → ∃ out, mergeComponents spec comps = .ok out) := by
  refine ⟨?_, ?_, mergeComponents_total spec comps⟩
  · intro hv hne
    cases comps with
    | nil => exact absurd rfl hne
    | cons c cs =>
      have hm : mergeComponent spec 0 c = .error valueFromError := by
        rw [mergeComponent_eq, mergeEnv_valueFrom _ _ hv]
      unfold mergeComponents mergeLoop
      simp only [hm]
      rfl
  · rintro rfl
    rfl

/-- Witness of C8 (amended): the entry with an indirect value source against a
descriptor with two container entries. -/
theorem mergeComponents_valueFrom_witness :
    (∃ e ∈ valueFromSpec.Env, e.ValueFrom ≠ none) ∧ mergeDoc ≠ []
    ∧ mergeComponents valueFromSpec mergeDoc
        = .error "env.ValueFrom is not supported at the moment, use env.value" :=
  ⟨by decide, by decide,
    (mergeComponents_valueFrom valueFromSpec mergeDoc).1 (by decide) (by decide)⟩

/-- The duplicate check passes exactly when no project has the name. -/
theorem checkProjects_eq_none (name : String) (projects : List Project) :
    checkProjects name projects = none ↔ ∀ p ∈ projects, p.Name ≠ name := by
  induction projects with
  | nil => simp [checkProjects]
  | cons p ps ih =>
    by_cases h : p.Name = name <;> simp [checkProjects, h, ih]

/-- The duplicate check fails, with the duplicate error, exactly when a project has
the name. -/
theorem checkProjects_eq_some (name : String) (projects : List Project) (err : Error) :
    checkProjects name projects = some err ↔
      err = duplicateProjectError name ∧ ∃ p ∈ projects, p.Name = name := by
  induction projects with
  | nil => simp [checkProjects]
  | cons p ps ih =>
    by_cases h : p.Name = name
    · simp only [checkProjects, h, if_true, Option.some.injEq]
      constructor
      · intro e
        exact ⟨e.symm, p, by simp, h⟩
      · rintro ⟨e, _⟩
        exact e.symm
    · simp [checkProjects, h, ih]

/-- C9. For every project list of the application descriptor and every
configuration: the link step fails exactly when an existing project has the
component name, the error then is "HASApplication already has a project with
name <name>" and the project list is unchanged; otherwise it returns no error
and appends exactly one project, named after the component, whose remotes are
the single entry "origin" -> git URL; unique project names stay unique; and the
link step for the same component name against the resulting list always fails
with the duplicate error. -/
theorem linkProject_duplicate (spec : HASComponentSpec) (projects : List Project) :
    ((linkProject spec projects).2 ≠ none ↔ ∃ p ∈ projects, p.Name = spec.ComponentName)
    ∧ ((∃ p ∈ projects, p.Name = spec.ComponentName) →
        linkProject spec projects =
          (projects,
            some ("HASApplication already has a project with name " ++ spec.ComponentName)))
    ∧ ((∀ p ∈ projects, p.Name ≠ spec.ComponentName) →
        linkProject spec projects =
          (projects ++
            [{ Name := spec.ComponentName,
               Remotes := [("origin", spec.Source.GitSource.URL)] }], none))
    ∧ ((projects.map (fun p => p.Name)).Nodup →
        ((linkProject spec projects).1.map (fun p => p.Name)).Nodup)
    ∧ (∀ spec' : HASComponentSpec, spec'.ComponentName = spec.ComponentName →
        linkProject spec' (linkProject spec projects).1 =
          ((linkProject spec projects).1,
            some ("HASApplication already has a project with name " ++ spec.ComponentName))) := by
  have hdup : (∃ p ∈ projects, p.Name = spec.ComponentName) →
      linkProject spec projects = (projects, some (duplicateProjectError spec.ComponentName)) := by
    intro h
    have := (checkProjects_eq_some spec.ComponentName projects _).mpr ⟨rfl, h⟩
    simp [linkProject, newProject, this]
  have hnew : (∀ p ∈ projects, p.Name ≠ spec.ComponentName) →
      linkProject spec projects = (projects ++ [newProject spec], none) := by
    intro h
    have := (checkProjects_eq_none spec.ComponentName projects).mpr h
    simp [linkProject, newProject, this, AddProjects]
  refine ⟨?_, hdup, hnew, ?_, ?_⟩
  · constructor
    · intro h
      by_contra hno
      have hno' : ∀ p ∈ projects, p.Name ≠ spec.ComponentName := by
        intro p hp hn
        exact hno ⟨p, hp, hn⟩
      rw [hnew hno'] at h
      exact h rfl
    · intro h
      rw [hdup h]
      simp
  · intro hnd
    by_cases h : ∃ p ∈ projects, p.Name = spec.ComponentName
    · rw [hdup h]; exact hnd
    · have hno' : ∀ p ∈ projects, p.Name ≠ spec.ComponentName := by
        intro p hp hn
        exact h ⟨p, hp, hn⟩
      rw [hnew hno']
      simp only [List.map_append, List.map_cons, List.map_nil, newProject]
      rw [List.nodup_append]
      refine ⟨hnd, by simp, ?_⟩
      intro a ha hb
      simp only [List.mem_singleton] at hb
      obtain ⟨p, hp, rfl⟩ := List.mem_map.mp ha
      exact hno' p hp hb
  · intro spec' hname
    have hin : ∃ p ∈ (linkProject spec projects).1, p.Name = spec'.ComponentName := by
      by_cases h : ∃ p ∈ projects, p.Name = spec.ComponentName
      · rw [hdup h]
        obtain ⟨p, hp, hn⟩ := h
        exact ⟨p, hp, hn.trans hname.symm⟩
      · have hno' : ∀ p ∈ projects, p.Name ≠ spec.ComponentName := by
          intro p hp hn
          exact h ⟨p, hp, hn⟩
        rw [hnew hno']
        exact ⟨newProject spec, by simp, hname.symm⟩
    have := (checkProjects_eq_some spec'.ComponentName (linkProject spec projects).1 _).mpr
      ⟨rfl, hin⟩
    generalize (linkProject spec projects).1 = result at this ⊢
    rw [hname] at this
    simp only [linkProject, newProject, hname, this, duplicateProjectError]

end controllers

/-! ### Fetches from the control plane -/

namespace controllers
open appstudiov1alpha1

/-- A part after the merge that returns no error has either failed to fetch the
owning application or updated the status of the component, with success, to the
serialized merged descriptor. -/
theorem linkAndPersist_err_none (w : World) (c : HASComponent) (devfileData : data.DevfileData)
    (calls : List Call) (h : (linkAndPersist w c devfileData calls).err = none) :
    (∃ e, w.getApplication ⟨c.Namespace, c.Spec.Application⟩ = .error e)
    ∨ (∃ yaml, w.yamlMarshal devfileData = .ok yaml
        ∧ w.updateComponentStatus { c with Status := { Devfile := yaml } } = none
        ∧ Call.UpdateComponentStatus { c with Status := { Devfile := yaml } }
            ∈ (linkAndPersist w c devfileData calls).calls) := by
  unfold linkAndPersist at h ⊢
  cases hga : w.getApplication ⟨c.Namespace, c.Spec.Application⟩ with
  | error e => exact Or.inl ⟨e, rfl⟩
  | ok app =>
    right
    simp only [hga] at h ⊢
    by_cases hd : app.Status.Devfile = ""
    · simp [hd] at h
    · simp only [ne_eq, hd, not_false_eq_true, if_true] at h ⊢
      cases hp : ParseDevfileModel w app.Status.Devfile with
      | error e => simp [hp] at h
      | ok appData =>
        simp only [hp] at h ⊢
        cases hl : linkProject c.Spec appData.Projects with
        | mk projects lerr =>
          cases lerr with
          | some e => simp [hl] at h
          | none =>
            simp only [hl] at h ⊢
            cases hy : w.yamlMarshal devfileData with
            | error e => simp [hy] at h
            | ok yaml =>
              simp only [hy] at h ⊢
              cases hu : w.updateComponentStatus { c with Status := { Devfile := yaml } } with
              | some e => simp [hu] at h
              | none =>
                simp only [hu] at h ⊢
                refine ⟨yaml, rfl, hu, ?_⟩
                cases hy2 : w.yamlMarshal { appData with Projects := projects } with
                | error e => simp [hy2] at h
                | ok yaml2 =>
                  simp only [hy2] at h ⊢
                  cases hu2 : w.updateApplicationStatus
                      { app with Status := { Devfile := yaml2 } } with
                  | some e => simp [hu2] at h
                  | none => simp

/-- C11 (counterexample). The component is found, uninitialized and git-sourced.
When the owning application does not exist (its fetch fails with a not-found
error) the pass returns no error and makes no status update, so it has neither
found no component nor persisted the component's status descriptor. When the
fetch of the owning application fails with an error that is not a not-found
error, the pass returns no error either, and makes no status update. -/
theorem reconcile_nil_without_status_update :
    (applicationNotFoundWorld.getComponent ⟨"ns", "comp"⟩ = .ok gitComponent
      ∧ gitComponent.Status.Devfile = ""
      ∧ gitComponent.Spec.Source.GitSource.URL ≠ ""
      ∧ applicationNotFoundWorld.getApplication ⟨"ns", "app"⟩
          = .error ⟨true, "hasapplications.appstudio.redhat.com \"app\" not found"⟩
      ∧ Reconcile applicationNotFoundWorld ⟨"ns", "comp"⟩ =
          { calls :=
              [ .GetComponent ⟨"ns", "comp"⟩,
                .HTTPGet "https://raw.githubusercontent.com/a/b/main/devfile.yaml",
                .ReadAll "https://raw.githubusercontent.com/a/b/main/devfile.yaml",
                .ParseDevfileAndValidate "schemaVersion: 2.1.0",
                .GetApplication ⟨"ns", "app"⟩],
            result := { Requeue := false },
            err := none })
    ∧ (applicationFetchFailsWorld.getComponent ⟨"ns", "comp"⟩ = .ok gitComponent
      ∧ applicationFetchFailsWorld.getApplication ⟨"ns", "app"⟩
          = .error ⟨false, "etcdserver: request timed out"⟩
      ∧ Reconcile applicationFetchFailsWorld ⟨"ns", "comp"⟩ =
          { calls :=
              [ .GetComponent ⟨"ns", "comp"⟩,
                .HTTPGet "https://raw.githubusercontent.com/a/b/main/devfile.yaml",
                .ReadAll "https://raw.githubusercontent.com/a/b/main/devfile.yaml",
                .ParseDevfileAndValidate "schemaVersion: 2.1.0",
                .GetApplication ⟨"ns", "app"⟩],
            result := { Requeue := false },
            err := none }) := by
  decide

/-- C11 (amended). For every pass: a failure of the fetch of the component is
returned to the caller as an error unless it is a not-found error, and then the
pass returns no error; in both cases the pass makes no other call. A not-found
failure of the fetch of the owning application ends the pass without error.
So, when the fetch of the owning application does not fail with an error other
than not-found, a pass over an uninitialized git-sourced component that returns
no error has either found no owning application or persisted the component's
status descriptor: it has updated the status of the component, with success, to
the serialized descriptor. -/
theorem reconcile_fetch_failures (w : World) (req : types.NamespacedName) :
    (∀ e, w.getComponent req = .error e →
      Reconcile w req =
        { calls := [.GetComponent req], result := { Requeue := false },
          err := if e.IsNotFound then none else some e.msg })
    ∧ (∀ (c : HASComponent) (devfileData : data.DevfileData) (calls : List Call) (e : APIError),
        w.getApplication ⟨c.Namespace, c.Spec.Application⟩ = .error e → e.IsNotFound = true →
        linkAndPersist w c devfileData calls =
          { calls := calls ++ [.GetApplication ⟨c.Namespace, c.Spec.Application⟩],
            result := { Requeue := false }, err := none })
    ∧ (∀ c : HASComponent, w.getComponent req = .ok c → c.Status.Devfile = "" →
        c.Spec.Source.GitSource.URL ≠ "" →
        (∀ e, w.getApplication ⟨c.Namespace, c.Spec.Application⟩ = .error e →
          e.IsNotFound = true) →
        (Reconcile w req).err = none →
        (∃ e, w.getApplication ⟨c.Namespace, c.Spec.Application⟩ = .error e
            ∧ e.IsNotFound = true)
        ∨ (∃ yaml, w.updateComponentStatus { c with Status := { Devfile := yaml } } = none
            ∧ Call.UpdateComponentStatus { c with Status := { Devfile := yaml } }
                ∈ (Reconcile w req).calls)) := by
  refine ⟨?_, ?_, ?_⟩
  · intro e he
    unfold Reconcile
    rw [he]
    cases hnf : e.IsNotFound <;> simp [hnf]
  · intro c devfileData calls e he _
    unfold linkAndPersist
    simp only [he]
  · intro c hc hdev hurl hnf herr
    unfold Reconcile at herr ⊢
    simp only [hc, hdev, if_true, ne_eq, hurl, not_false_eq_true] at herr ⊢
    cases hr : resolveDevfile w c (candidatePath c.Spec.Context) with
    | mk calls res =>
      cases res with
      | error e => simp [hr] at herr
      | ok devfileBytes =>
        simp only [hr] at herr ⊢
        cases hp : w.parseDevfileAndValidate devfileBytes with
        | error e => simp [hp] at herr
        | ok devfileData =>
          simp only [hp] at herr ⊢
          cases hm : mergeComponents c.Spec devfileData.Components with
          | error e => simp [hm] at herr
          | ok components =>
            simp only [hm] at herr ⊢
            rcases linkAndPersist_err_none w c _ _ herr with ⟨e, he⟩ | ⟨yaml, _, hu, hmem⟩
            · exact Or.inl ⟨e, he, hnf e he⟩
            · exact Or.inr ⟨yaml, hu, hmem⟩

/-- Witness of C11 (amended): a pass whose component fetch fails with an error
that is not a not-found error, and a pass in which every call succeeds. -/
theorem reconcile_fetch_failures_witness :
    Reconcile componentFetchFailsWorld ⟨"ns", "comp"⟩ =
      { calls := [.GetComponent ⟨"ns", "comp"⟩], result := { Requeue := false },
        err := some "etcdserver: request timed out" }
    ∧ (Reconcile directWorld ⟨"ns", "comp"⟩).err = none
    ∧ ((∃ e, directWorld.getApplication ⟨gitComponent.Namespace, gitComponent.Spec.Application⟩
            = .error e ∧ e.IsNotFound = true)
        ∨ (∃ yaml,
            directWorld.updateComponentStatus
                { gitComponent with Status := { Devfile := yaml } } = none
            ∧ Call.UpdateComponentStatus { gitComponent with Status := { Devfile := yaml } }
                ∈ (Reconcile directWorld ⟨"ns", "comp"⟩).calls)) :=
  ⟨(reconcile_fetch_failures componentFetchFailsWorld ⟨"ns", "comp"⟩).1
      ⟨false, "etcdserver: request timed out"⟩ rfl,
    by decide,
    (reconcile_fetch_failures directWorld ⟨"ns", "comp"⟩).2.2 gitComponent rfl rfl
      (by decide) (fun e h => by cases h) (by decide)⟩

end controllers
